import Mathlib

/-!
Verification of the subagent/work-item tracking core of `claude-code-acp`.

The development shallowly embeds three source modules:

* `src/subagent-tracker.ts` — the `SubagentTracker` class: an in-memory
  registry of `TrackedSubagent` records with a per-session index and an
  `agentId` reverse index, plus `cleanup`, `exportState` and `importState`.
* `src/task-store.ts` — the `TaskStore` class: a file-backed work-item store
  (one JSON file per task, keyed by numeric string id) with `init`, `create`,
  `get`, `update`, `delete` and the `generateActiveForm` helper.
* the `TaskManager` class — persistence wrapper over `SubagentTracker`
  with a dirty flag (`loadState` / `saveState`).

JavaScript `Map`s are embedded as insertion-ordered association lists
(`set` replaces the value of an existing key in place and appends new keys at
the end), JS `Set`s as duplicate-free lists in insertion order, the file
system directory of the task store as an association list from file id to
parsed task, and timestamps as natural numbers with comparisons carried out
in `Int` where the JS code subtracts.  JS truthiness tests on optional
numbers and strings (`if (x)`) are embedded as "is `some` and not zero / not
the empty string".
-/

namespace AcpModel

/-! ### Association lists embedding JS `Map` (insertion ordered) -/

/-- Lookup in an association list: the value of the first entry whose key
matches, like `Map.get`. -/
def mapGet {α : Type} : List (String × α) → String → Option α
  | [], _ => none
  | e :: rest, k => if e.1 = k then some e.2 else mapGet rest k

/-- Whether an association list has an entry for key `k`, like `Map.has`. -/
def containsKey {α : Type} : List (String × α) → String → Bool
  | [], _ => false
  | e :: rest, k => if e.1 = k then true else containsKey rest k

/-- Replace the value of every entry with key `k` by `v`. -/
def replaceKey {α : Type} : List (String × α) → String → α → List (String × α)
  | [], _, _ => []
  | e :: rest, k, v =>
      if e.1 = k then (k, v) :: replaceKey rest k v
      else e :: replaceKey rest k v

/-- `Map.set`: update the value in place when the key is present (keeping
insertion order), otherwise append the new entry at the end. -/
def mapSet {α : Type} (l : List (String × α)) (k : String) (v : α) :
    List (String × α) :=
  if containsKey l k then replaceKey l k v else l ++ [(k, v)]

/-- `Map.delete`: drop every entry with key `k`. -/
def mapDelete {α : Type} : List (String × α) → String → List (String × α)
  | [], _ => []
  | e :: rest, k =>
      if e.1 = k then mapDelete rest k else e :: mapDelete rest k

/-- The keys of an association list. -/
def keysOf {α : Type} (l : List (String × α)) : List String :=
  l.map Prod.fst

/-! ### Duplicate-free lists embedding JS `Set` (insertion ordered) -/

/-- `Set.add`: append the element when it is not already present. -/
def setAdd (l : List String) (x : String) : List String :=
  if x ∈ l then l else l ++ [x]

/-- `Set.delete`: remove every occurrence of the element. -/
def setDelete : List String → String → List String
  | [], _ => []
  | y :: rest, x =>
      if y = x then setDelete rest x else y :: setDelete rest x

end AcpModel

namespace SubagentTracker

open AcpModel

/-- `SubagentStatus` from `subagent-tracker.ts`. -/
inductive SubagentStatus : Type
  | pending
  | running
  | completed
  | failed
  | cancelled
  | stopped
deriving DecidableEq

/-- Opaque JSON payloads (`unknown` fields such as `result`).  Only `null`
is ever inspected by the embedded code, so a small JSON fragment suffices. -/
inductive JsonVal : Type
  | null
  | str (s : String)
  | num (n : Int)
  | bool (b : Bool)
deriving DecidableEq

/-- `TrackedSubagent` from `subagent-tracker.ts`.  Optional fields are
`Option`s; timestamps are naturals (JS epoch milliseconds). -/
structure TrackedSubagent : Type where
  id : String
  parentSessionId : String
  parentToolUseId : Option String
  subagentType : String
  description : String
  prompt : String
  model : Option String
  status : SubagentStatus
  createdAt : Nat
  startedAt : Option Nat
  completedAt : Option Nat
  result : Option JsonVal
  error : Option String
  runInBackground : Bool
  maxTurns : Option Nat
  agentId : Option String
  outputFile : Option String
  summary : Option String
  agentName : Option String
  teamName : Option String
  permissionMode : Option String
  isResumed : Option Bool
  originalTaskId : Option String
deriving DecidableEq

/-- `SerializedTask` from `subagent-tracker.ts` (the persisted shape of a
tracked subagent; `subagentType`, `model` and `permissionMode` are persisted
as plain strings). -/
structure SerializedTask : Type where
  id : String
  parentSessionId : String
  parentToolUseId : Option String
  subagentType : String
  description : String
  prompt : String
  model : Option String
  status : SubagentStatus
  createdAt : Nat
  startedAt : Option Nat
  completedAt : Option Nat
  result : Option JsonVal
  error : Option String
  runInBackground : Bool
  maxTurns : Option Nat
  agentId : Option String
  outputFile : Option String
  summary : Option String
  agentName : Option String
  teamName : Option String
  permissionMode : Option String
  isResumed : Option Bool
  originalTaskId : Option String
deriving DecidableEq

/-- `SerializedTrackerState` from `subagent-tracker.ts`. -/
structure SerializedTrackerState : Type where
  version : Nat
  tasks : List SerializedTask
  lastUpdated : Nat
deriving DecidableEq

/-- The mutable state of a `SubagentTracker` instance: the `subagents` map,
the per-session index `sessionSubagents` (session id to set of subagent ids)
and the `agentIdToSubagent` reverse index. -/
structure TrackerState : Type where
  subagents : List (String × TrackedSubagent)
  sessionSubagents : List (String × List String)
  agentIdToSubagent : List (String × String)
deriving DecidableEq

/-- A freshly constructed tracker: all three maps empty. -/
def emptyTracker : TrackerState :=
  { subagents := [], sessionSubagents := [], agentIdToSubagent := [] }

/-- The set of subagent ids recorded for a session (empty when the session
has no entry in the index). -/
def sessionSetOf (st : TrackerState) (sessionId : String) : List String :=
  (mapGet st.sessionSubagents sessionId).getD []

/-- Whether a status is terminal in the sense of `cleanup` in
`subagent-tracker.ts` (the literal disjunction tested there). -/
def isTerminal (s : SubagentStatus) : Bool :=
  decide (s = .completed) || decide (s = .failed) ||
    decide (s = .cancelled) || decide (s = .stopped)

/-- The removal test of `cleanup`: terminal status, `completedAt` truthy
(present and nonzero — the JS code tests `subagent.completedAt &&`), and
`now - completedAt > maxAgeMs` computed over the integers as in JS. -/
def shouldRemove (now maxAgeMs : Nat) (s : TrackedSubagent) : Bool :=
  isTerminal s.status &&
    (match s.completedAt with
     | some c => decide (c ≠ 0) && decide ((now : Int) - (c : Int) > (maxAgeMs : Int))
     | none => false)

/-- Removal of one entry inside `cleanup`: delete it from `subagents`,
delete its id from its session's set, and when its `agentId` is truthy
delete that key from the reverse index. -/
def removeEntry (st : TrackerState) (id : String) (s : TrackedSubagent) :
    TrackerState :=
  { subagents := mapDelete st.subagents id,
    sessionSubagents :=
      match mapGet st.sessionSubagents s.parentSessionId with
      | some set =>
          mapSet st.sessionSubagents s.parentSessionId (setDelete set id)
      | none => st.sessionSubagents,
    agentIdToSubagent :=
      match s.agentId with
      | some a => if a ≠ "" then mapDelete st.agentIdToSubagent a
                  else st.agentIdToSubagent
      | none => st.agentIdToSubagent }

/-- The `for (const [id, subagent] of this.subagents)` loop of `cleanup`:
walk the entries, removing the matching ones and counting. -/
def cleanupGo (now maxAgeMs : Nat) :
    List (String × TrackedSubagent) → TrackerState → Nat → TrackerState × Nat
  | [], st, n => (st, n)
  | e :: rest, st, n =>
      if shouldRemove now maxAgeMs e.2 then
        cleanupGo now maxAgeMs rest (removeEntry st e.1 e.2) (n + 1)
      else
        cleanupGo now maxAgeMs rest st n

/-- `cleanup(maxAgeMs)` from `subagent-tracker.ts`: sweep the `subagents`
map and return the updated state together with the removed count. -/
def cleanup (now maxAgeMs : Nat) (st : TrackerState) : TrackerState × Nat :=
  cleanupGo now maxAgeMs st.subagents st 0

/-- Field-by-field serialization of one subagent, as in `exportState`. -/
def toSerialized (s : TrackedSubagent) : SerializedTask :=
  { id := s.id
    parentSessionId := s.parentSessionId
    parentToolUseId := s.parentToolUseId
    subagentType := s.subagentType
    description := s.description
    prompt := s.prompt
    model := s.model
    status := s.status
    createdAt := s.createdAt
    startedAt := s.startedAt
    completedAt := s.completedAt
    result := s.result
    error := s.error
    runInBackground := s.runInBackground
    maxTurns := s.maxTurns
    agentId := s.agentId
    outputFile := s.outputFile
    summary := s.summary
    agentName := s.agentName
    teamName := s.teamName
    permissionMode := s.permissionMode
    isResumed := s.isResumed
    originalTaskId := s.originalTaskId }

/-- Field-by-field deserialization of one task, as in `importState`. -/
def ofSerialized (t : SerializedTask) : TrackedSubagent :=
  { id := t.id
    parentSessionId := t.parentSessionId
    parentToolUseId := t.parentToolUseId
    subagentType := t.subagentType
    description := t.description
    prompt := t.prompt
    model := t.model
    status := t.status
    createdAt := t.createdAt
    startedAt := t.startedAt
    completedAt := t.completedAt
    result := t.result
    error := t.error
    runInBackground := t.runInBackground
    maxTurns := t.maxTurns
    agentId := t.agentId
    outputFile := t.outputFile
    summary := t.summary
    agentName := t.agentName
    teamName := t.teamName
    permissionMode := t.permissionMode
    isResumed := t.isResumed
    originalTaskId := t.originalTaskId }

/-- `exportState()` from `subagent-tracker.ts`: serialize every current
subagent value, with `version` 1 and `lastUpdated` `Date.now()`. -/
def exportState (now : Nat) (st : TrackerState) : SerializedTrackerState :=
  { version := 1
    tasks := st.subagents.map (fun e => toSerialized e.2)
    lastUpdated := now }

/-- Insert one subagent id into a session's set, as `importState` does
(create the set when missing, then `add`). -/
def sessionAdd (m : List (String × List String)) (sessionId id : String) :
    List (String × List String) :=
  mapSet m sessionId (setAdd ((mapGet m sessionId).getD []) id)

/-- One iteration of the `importState` loop: store the rebuilt subagent
under `task.id`, rebuild the session index, and rebuild the agent-id index
when `task.agentId` is truthy. -/
def importStep (st : TrackerState) (t : SerializedTask) : TrackerState :=
  let st1 : TrackerState :=
    { st with subagents := mapSet st.subagents t.id (ofSerialized t) }
  let st2 : TrackerState :=
    { st1 with sessionSubagents := sessionAdd st1.sessionSubagents t.parentSessionId t.id }
  match t.agentId with
  | some a =>
      if a ≠ "" then
        { st2 with agentIdToSubagent := mapSet st2.agentIdToSubagent a t.id }
      else st2
  | none => st2

/-- The truthiness view of an optional agent id: `some` and nonempty (the
source guards index updates with `if (task.agentId)`). -/
def truthyAgent (a : Option String) : Option String :=
  match a with
  | some x => if x = "" then none else some x
  | none => none

/-- `importState(state)` from `subagent-tracker.ts`: reject unknown
versions, otherwise fold the serialized tasks into the tracker. -/
def importState (st : TrackerState) (state : SerializedTrackerState) :
    TrackerState :=
  if state.version ≠ 1 then st
  else state.tasks.foldl importStep st

end SubagentTracker

namespace TaskManager

open AcpModel SubagentTracker

/-- The inputs that determine one call of `TaskManager.saveState`: the dirty
flag at entry, the wrapped tracker, the persisted snapshot currently on
disk, whether a tracker event fires during the write window (the event
listeners set the dirty flag), and whether the write throws. -/
structure SaveContext : Type where
  isDirty : Bool
  tracker : TrackerState
  disk : Option SerializedTrackerState
  eventDuringWrite : Bool
  writeFails : Bool
deriving DecidableEq

/-- The observable outcome of one `saveState` call.  `errorLogged` embeds
the `catch` branch (the error is logged, and the function returns normally
rather than rethrowing, which is why the result is a plain structure and
not an `Except`). -/
structure SaveOutcome : Type where
  attemptedWrite : Bool
  isDirty : Bool
  disk : Option SerializedTrackerState
  errorLogged : Bool
deriving DecidableEq

/-- `TaskManager.saveState`: return immediately when the dirty flag is
clear; otherwise clear the flag first, let a concurrent event re-set it
during the write window, then either replace the snapshot atomically (the
temp-file-plus-rename of the source is embedded as a single assignment) or,
when the write throws, restore the flag to `true` and log. -/
def saveState (now : Nat) (ctx : SaveContext) : SaveOutcome :=
  if !ctx.isDirty then
    { attemptedWrite := false
      isDirty := ctx.isDirty
      disk := ctx.disk
      errorLogged := false }
  else
    let dirtyAfterClear := false
    let dirtyDuringWrite := dirtyAfterClear || ctx.eventDuringWrite
    if ctx.writeFails then
      { attemptedWrite := true
        isDirty := true
        disk := ctx.disk
        errorLogged := true }
    else
      { attemptedWrite := true
        isDirty := dirtyDuringWrite
        disk := some (exportState now ctx.tracker)
        errorLogged := false }

/-- `TaskManager.loadState`: when a snapshot file exists and parses, reject
unknown versions, otherwise import the tasks filtered by the retention
cutoff `now - maxTaskAgeMs` (strict `createdAt > cutoff`, with `running`
tasks always kept). -/
def loadState (now maxTaskAgeMs : Nat) (registry : TrackerState)
    (snapshot : Option SerializedTrackerState) : TrackerState :=
  match snapshot with
  | none => registry
  | some state =>
      if state.version ≠ 1 then registry
      else
        let cutoff : Int := (now : Int) - (maxTaskAgeMs : Int)
        let filteredTasks := state.tasks.filter
          (fun t => decide ((t.createdAt : Int) > cutoff) ||
            decide (t.status = .running))
        importState registry { state with tasks := filteredTasks }

end TaskManager

namespace TaskStore

open AcpModel

/-- `TaskStatus` from `task-store.ts`. -/
inductive TaskStatus : Type
  | pending
  | in_progress
  | completed
deriving DecidableEq

/-- Metadata values (`unknown` in the source).  Only `null` is inspected by
the embedded code. -/
inductive MetaVal : Type
  | null
  | str (s : String)
  | num (n : Int)
  | bool (b : Bool)
deriving DecidableEq

/-- A JS object of metadata: string keys to values, insertion ordered with
unique keys. -/
abbrev MetaObj : Type := List (String × MetaVal)

/-- The JS spread `{...m, ...p}`: keys of `m` in order with values
overridden by `p`, then the new keys of `p` appended in order (JS objects
behave as the insertion-ordered maps of `AcpModel`). -/
def objMerge (m p : MetaObj) : MetaObj :=
  p.foldl (fun acc e => mapSet acc e.1 e.2) m

/-- `Task` from `task-store.ts`. -/
structure Task : Type where
  id : String
  subject : String
  description : String
  activeForm : String
  status : TaskStatus
  owner : Option String
  blocks : List String
  blockedBy : List String
  metadata : Option MetaObj
deriving DecidableEq

/-- `TaskCreateInput` from `task-store.ts`. -/
structure TaskCreateInput : Type where
  subject : String
  description : String
  activeForm : Option String
  metadata : Option MetaObj
deriving DecidableEq

/-- `TaskUpdateInput` from `task-store.ts`. -/
structure TaskUpdateInput : Type where
  status : Option TaskStatus
  subject : Option String
  description : Option String
  activeForm : Option String
  owner : Option String
  addBlocks : Option (List String)
  addBlockedBy : Option (List String)
  metadata : Option MetaObj
deriving DecidableEq

/-- The state of a `TaskStore` instance: the task-list directory (file id
to parsed task), the `nextId` counter and the `initialized` flag. -/
structure StoreState : Type where
  files : List (String × Task)
  nextId : Int
  initialized : Bool
deriving DecidableEq

/-- A freshly constructed store over a directory: `nextId` starts at 1 and
the store is not yet initialized. -/
def freshStore (files : List (String × Task)) : StoreState :=
  { files := files, nextId := 1, initialized := false }

/-! #### Decimal printing and parsing for numeric ids

`String(this.nextId++)` and `parseInt(t.id, 10) || 0` are embedded by the
following printer and parser.  The printer is fuel-structured so that it
reduces definitionally on concrete inputs. -/

/-- The decimal digit character for `n < 10`. -/
def digitChar (n : Nat) : Char := Char.ofNat (48 + n)

/-- Decimal digits of `n`, least significant first; `fuel` bounds the
recursion depth and is sufficient whenever `n < fuel`. -/
def natDigitsRevAux : Nat → Nat → List Char
  | 0, _ => []
  | fuel + 1, n =>
      if n < 10 then [digitChar n]
      else digitChar (n % 10) :: natDigitsRevAux fuel (n / 10)

/-- Decimal digits of `n`, least significant first. -/
def natDigitsRev (n : Nat) : List Char := natDigitsRevAux (n + 1) n

/-- Decimal rendering of a natural. -/
def natToString (n : Nat) : String := String.mk (natDigitsRev n).reverse

/-- Decimal rendering of a JS integer-valued number (`String(n)`). -/
def intToString (i : Int) : String :=
  if i < 0 then "-" ++ natToString i.natAbs else natToString i.natAbs

/-- Value of a list of decimal digit characters. -/
def parseNatDigits (cs : List Char) : Nat :=
  cs.foldl (fun acc c => acc * 10 + (c.toNat - 48)) 0

/-- `parseInt` over a character list: skip leading whitespace, read an
optional sign and the longest prefix of decimal digits; when there is no
digit the JS expression `parseInt(..) || 0` yields `NaN || 0 = 0`. -/
def parseIntChars (cs0 : List Char) : Int :=
  let cs := cs0.dropWhile (fun c =>
    decide (c = ' ') || decide (c = '\t') || decide (c = '\n') || decide (c = '\r'))
  let signAndRest : Int × List Char :=
    match cs with
    | c :: rest =>
        if c = '-' then (-1, rest)
        else if c = '+' then (1, rest)
        else (1, c :: rest)
    | [] => (1, [])
  let ds := signAndRest.2.takeWhile Char.isDigit
  if ds = [] then 0 else signAndRest.1 * (parseNatDigits ds : Int)

/-- `parseInt(s, 10) || 0` on a string. -/
def parseIntOr0 (s : String) : Int := parseIntChars s.data

/-- `Math.max(...)` over a nonempty list of parsed ids (`0` for the empty
list, which `init` never consults). -/
def maxParsedId (files : List (String × Task)) : Int :=
  match files.map (fun e => parseIntOr0 e.2.id) with
  | [] => 0
  | v :: vs => vs.foldl max v

/-- `init()` from `task-store.ts`: a no-op when already initialized;
otherwise recover `nextId` as the maximum parsed id plus one when the
directory is nonempty (the constructor default 1 is kept when it is
empty), then mark the store initialized. -/
def init (st : StoreState) : StoreState :=
  if st.initialized then st
  else
    let st' :=
      if st.files.isEmpty then st
      else { st with nextId := maxParsedId st.files + 1 }
    { st' with initialized := true }

/-- `subject.split(" ")`: cut at every single space, keeping empty pieces
(`""` splits to `[""]`, as in JS). -/
def splitWordsAux : List Char → List Char → List String
  | cur, [] => [String.mk cur.reverse]
  | cur, c :: cs =>
      if c = ' ' then String.mk cur.reverse :: splitWordsAux [] cs
      else splitWordsAux (c :: cur) cs

/-- The word list of a subject (`subject.split(" ")`). -/
def splitWords (s : String) : List String := splitWordsAux [] s.data

/-- `[participle, ...words.slice(1)].join(" ")`. -/
def joinWords : List String → String
  | [] => ""
  | w :: ws => ws.foldl (fun acc x => acc ++ " " ++ x) w

/-- Lowercase a string character-wise (ASCII, as exercised by the claims). -/
def lowerAscii (s : String) : String := String.mk (s.data.map Char.toLower)

/-- Uppercase the first character (`charAt(0).toUpperCase() + slice(1)`). -/
def capitalizeFirst (s : String) : String :=
  match s.data with
  | [] => s
  | c :: cs => String.mk (Char.toUpper c :: cs)

/-- Whether the (lowercased) verb ends in `"e"`. -/
def endsWithE (v : String) : Bool :=
  match v.data.reverse with
  | c :: _ => decide (c = 'e')
  | [] => false

/-- The vowels of the doubling test. -/
def vowelChars : List Char := ['a', 'e', 'i', 'o', 'u']

/-- The consonant class `[bcdfghjklmnpqrstvz]` of the doubling test
(every consonant except w, x, y). -/
def doublingConsonants : List Char :=
  ['b', 'c', 'd', 'f', 'g', 'h', 'j', 'k', 'l', 'm', 'n', 'p', 'q', 'r',
   's', 't', 'v', 'z']

/-- The regex test `[aeiou][bcdfghjklmnpqrstvz]$`: the last character is in
the consonant class and the one before it is a vowel. -/
def matchesDoubling (v : String) : Bool :=
  match v.data.reverse with
  | c :: b :: _ => decide (b ∈ vowelChars) && decide (c ∈ doublingConsonants)
  | _ => false

/-- The last character of the verb as a string (`verb.slice(-1)`). -/
def lastCharString (v : String) : String :=
  String.mk (v.data.reverse.take 1)

/-- All but the last character (`verb.slice(0, -1)`). -/
def dropLastString (v : String) : String := String.mk v.data.dropLast

/-- The participle branch of `generateActiveForm`: silent-e elision first,
then final-consonant doubling, then plain `ing`. -/
def participleOf (verb : String) : String :=
  if endsWithE verb then dropLastString verb ++ "ing"
  else if matchesDoubling verb then verb ++ lastCharString verb ++ "ing"
  else verb ++ "ing"

/-- Modelled from the spec: the participle transform as the spec words it,
testing the doubling pattern first, then silent-e elision, then plain
`ing`. -/
def claimParticipleOf (verb : String) : String :=
  if matchesDoubling verb then verb ++ lastCharString verb ++ "ing"
  else if endsWithE verb then dropLastString verb ++ "ing"
  else verb ++ "ing"

/-- `generateActiveForm(subject)` from `task-store.ts`: lowercase the first
word, turn it into a present participle, capitalize its first letter and
re-join with the remaining words. -/
def generateActiveForm (subject : String) : String :=
  match splitWords subject with
  | [] => subject
  | w :: rest =>
      joinWords (capitalizeFirst (participleOf (lowerAscii w)) :: rest)

/-- Modelled from the spec: the activeForm derivation with the spec's
ordering of the participle rules. -/
def claimActiveForm (subject : String) : String :=
  match splitWords subject with
  | [] => subject
  | w :: rest =>
      joinWords (capitalizeFirst (claimParticipleOf (lowerAscii w)) :: rest)

/-- `create(input)` from `task-store.ts`: initialize, allocate the next id,
derive `activeForm` when absent, start with `pending` status and empty edge
lists, and save the task file. -/
def create (st : StoreState) (input : TaskCreateInput) : Task × StoreState :=
  let st := init st
  let task : Task :=
    { id := intToString st.nextId
      subject := input.subject
      description := input.description
      activeForm := input.activeForm.getD (generateActiveForm input.subject)
      status := .pending
      owner := none
      blocks := []
      blockedBy := []
      metadata := input.metadata }
  (task, { st with nextId := st.nextId + 1, files := mapSet st.files task.id task })

/-- `get(taskId)` from `task-store.ts`: read the task file, `none` when it
does not exist. -/
def get (st : StoreState) (taskId : String) : Option Task :=
  mapGet (init st).files taskId

/-- Scalar field patches of `update` (status, subject, description,
activeForm, owner overwrite when supplied). -/
def applyScalar (t : Task) (input : TaskUpdateInput) : Task :=
  let t := match input.status with | some s => { t with status := s } | none => t
  let t := match input.subject with | some s => { t with subject := s } | none => t
  let t := match input.description with | some s => { t with description := s } | none => t
  let t := match input.activeForm with | some s => { t with activeForm := s } | none => t
  match input.owner with | some s => { t with owner := s } | none => t

/-- The `addBlocks` loop of `update`: append each id to the in-memory
task's `blocks` when missing, and mirror the edge into the referenced
task's file (`blockedBy` gains `taskId`) when that task exists and does not
already record it. -/
def addBlocksGo (taskId : String) :
    List String → Task → List (String × Task) → Task × List (String × Task)
  | [], t, fs => (t, fs)
  | b :: rest, t, fs =>
      let t' := if b ∈ t.blocks then t else { t with blocks := t.blocks ++ [b] }
      let fs' :=
        match mapGet fs b with
        | some bt =>
            if taskId ∈ bt.blockedBy then fs
            else mapSet fs b { bt with blockedBy := bt.blockedBy ++ [taskId] }
        | none => fs
      addBlocksGo taskId rest t' fs'

/-- The `addBlockedBy` loop of `update`, symmetric to `addBlocksGo`. -/
def addBlockedByGo (taskId : String) :
    List String → Task → List (String × Task) → Task × List (String × Task)
  | [], t, fs => (t, fs)
  | b :: rest, t, fs =>
      let t' := if b ∈ t.blockedBy then t
                else { t with blockedBy := t.blockedBy ++ [b] }
      let fs' :=
        match mapGet fs b with
        | some bt =>
            if taskId ∈ bt.blocks then fs
            else mapSet fs b { bt with blocks := bt.blocks ++ [taskId] }
        | none => fs
      addBlockedByGo taskId rest t' fs'

/-- The metadata merge of `update`: spread the patch over the existing
metadata, then delete every key the patch maps to `null`. -/
def mergeMetadata (old : Option MetaObj) (patch : Option MetaObj) :
    Option MetaObj :=
  match patch with
  | none => old
  | some p =>
      let merged := objMerge (old.getD []) p
      some (p.foldl (fun acc e =>
        if e.2 = MetaVal.null then mapDelete acc e.1 else acc) merged)

/-- The consistency pass of `update` when the patch sets status
`completed`: rewrite every task this one blocks, filtering `taskId` out of
its `blockedBy`. -/
def completedPassGo (taskId : String) :
    List String → List (String × Task) → List (String × Task)
  | [], fs => fs
  | b :: rest, fs =>
      let fs' :=
        match mapGet fs b with
        | some bt =>
            mapSet fs b
              { bt with blockedBy := bt.blockedBy.filter (fun x => decide (x ≠ taskId)) }
        | none => fs
      completedPassGo taskId rest fs'

/-- `update(taskId, input)` from `task-store.ts`: throws `Task not found`
when the id does not resolve; otherwise applies scalar patches, the two
edge loops, the metadata merge and (for a `completed` status patch) the
consistency pass, then saves the in-memory task last. -/
def update (st : StoreState) (taskId : String) (input : TaskUpdateInput) :
    Except String (Task × StoreState) :=
  let st := init st
  match mapGet st.files taskId with
  | none => .error ("Task not found: " ++ taskId)
  | some t0 =>
      let t1 := applyScalar t0 input
      let r2 := addBlocksGo taskId (input.addBlocks.getD []) t1 st.files
      let r3 := addBlockedByGo taskId (input.addBlockedBy.getD []) r2.1 r2.2
      let t4 := { r3.1 with metadata := mergeMetadata r3.1.metadata input.metadata }
      let fs5 := if input.status = some .completed
                 then completedPassGo taskId t4.blocks r3.2
                 else r3.2
      .ok (t4, { st with files := mapSet fs5 taskId t4 })

/-- The first loop of `delete`: every task this one blocks loses `taskId`
from its `blockedBy`. -/
def deleteBlocksGo (taskId : String) :
    List String → List (String × Task) → List (String × Task)
  | [], fs => fs
  | b :: rest, fs =>
      let fs' :=
        match mapGet fs b with
        | some bt =>
            mapSet fs b
              { bt with blockedBy := bt.blockedBy.filter (fun x => decide (x ≠ taskId)) }
        | none => fs
      deleteBlocksGo taskId rest fs'

/-- The second loop of `delete`: every task blocking this one loses
`taskId` from its `blocks`. -/
def deleteBlockedByGo (taskId : String) :
    List String → List (String × Task) → List (String × Task)
  | [], fs => fs
  | b :: rest, fs =>
      let fs' :=
        match mapGet fs b with
        | some bt =>
            mapSet fs b
              { bt with blocks := bt.blocks.filter (fun x => decide (x ≠ taskId)) }
        | none => fs
      deleteBlockedByGo taskId rest fs'

/-- `delete(taskId)` from `task-store.ts`: `false` when the task does not
exist; otherwise repair both edge directions in the neighbours' files, then
remove the task file (`rm` succeeds exactly when the file is still there,
which the loops never remove). -/
def deleteTask (st : StoreState) (taskId : String) : Bool × StoreState :=
  let st := init st
  match mapGet st.files taskId with
  | none => (false, st)
  | some t =>
      let fs1 := deleteBlocksGo taskId t.blocks st.files
      let fs2 := deleteBlockedByGo taskId t.blockedBy fs1
      if containsKey fs2 taskId then (true, { st with files := mapDelete fs2 taskId })
      else (false, { st with files := fs2 })

end TaskStore

namespace Examples

open AcpModel SubagentTracker TaskManager TaskStore

/-- A tracked subagent with every optional field empty, used to build
concrete states. -/
def baseSubagent : TrackedSubagent :=
  { id := ""
    parentSessionId := ""
    parentToolUseId := none
    subagentType := "general-purpose"
    description := ""
    prompt := ""
    model := none
    status := .pending
    createdAt := 0
    startedAt := none
    completedAt := none
    result := none
    error := none
    runInBackground := false
    maxTurns := none
    agentId := none
    outputFile := none
    summary := none
    agentName := none
    teamName := none
    permissionMode := none
    isResumed := none
    originalTaskId := none }

/-- A serialized task with every optional field empty. -/
def baseSerialized : SerializedTask := toSerialized baseSubagent

/-- A completed subagent whose `completedAt` is the (falsy) timestamp 0. -/
def zeroCompleted : TrackedSubagent :=
  { baseSubagent with
      id := "s1", parentSessionId := "sess", status := .completed,
      createdAt := 0, startedAt := some 0, completedAt := some 0 }

/-- A tracker holding only `zeroCompleted`, with consistent indices. -/
def zeroCompletedTracker : TrackerState :=
  { subagents := [("s1", zeroCompleted)]
    sessionSubagents := [("sess", ["s1"])]
    agentIdToSubagent := [] }

/-- A completed subagent with an ordinary nonzero `completedAt`. -/
def oldCompleted : TrackedSubagent :=
  { baseSubagent with
      id := "s2", parentSessionId := "sess", status := .completed,
      createdAt := 10, startedAt := some 10, completedAt := some 20,
      agentId := some "agent-2" }

/-- A running subagent in the same session. -/
def runningAgent : TrackedSubagent :=
  { baseSubagent with
      id := "s3", parentSessionId := "sess", status := .running,
      createdAt := 10, startedAt := some 15 }

/-- A tracker holding one stale completed subagent and one running one. -/
def mixedTracker : TrackerState :=
  { subagents := [("s2", oldCompleted), ("s3", runningAgent)]
    sessionSubagents := [("sess", ["s2", "s3"])]
    agentIdToSubagent := [("agent-2", "s2")] }

/-- A completed serialized task whose `createdAt` sits exactly at the
retention cutoff for `now = 100`, `maxTaskAgeMs = 50`. -/
def boundaryOldTask : SerializedTask :=
  { baseSerialized with
      id := "t1", parentSessionId := "sess", status := .completed,
      createdAt := 50, completedAt := some 60 }

/-- An old running serialized task (well before the cutoff). -/
def boundaryRunningTask : SerializedTask :=
  { baseSerialized with
      id := "t2", parentSessionId := "sess", status := .running,
      createdAt := 10, startedAt := some 12 }

/-- A version-1 snapshot with one completed task at the retention cutoff
and one old running task. -/
def boundarySnapshot : SerializedTrackerState :=
  { version := 1
    tasks := [boundaryOldTask, boundaryRunningTask]
    lastUpdated := 90 }

/-- A plain pending work item with the given id. -/
def plainTask (id : String) : Task :=
  { id := id
    subject := "Run tests"
    description := ""
    activeForm := "Running tests"
    status := .pending
    owner := none
    blocks := []
    blockedBy := []
    metadata := none }

/-- The all-`none` update patch. -/
def emptyPatch : TaskUpdateInput :=
  { status := none, subject := none, description := none, activeForm := none,
    owner := none, addBlocks := none, addBlockedBy := none, metadata := none }

/-- An initialized store holding the single task `"1"`. -/
def singleStore : StoreState :=
  { files := [("1", plainTask "1")], nextId := 2, initialized := true }

/-- An initialized store holding the distinct tasks `"1"` and `"2"`. -/
def pairStore : StoreState :=
  { files := [("1", plainTask "1"), ("2", plainTask "2")]
    nextId := 3, initialized := true }

/-- A create input with no explicit `activeForm`. -/
def runTestsInput : TaskCreateInput :=
  { subject := "Run tests", description := "", activeForm := none,
    metadata := none }

end Examples

namespace TaskStore

/-- The all-`none` update patch, the base of the specific patches below. -/
def blankPatch : TaskUpdateInput :=
  { status := none, subject := none, description := none, activeForm := none,
    owner := none, addBlocks := none, addBlockedBy := none, metadata := none }

/-- A patch that only adds `blocks` edges. -/
def addBlocksPatch (l : List String) : TaskUpdateInput :=
  { blankPatch with addBlocks := some l }

/-- A patch that only adds `blockedBy` edges. -/
def addBlockedByPatch (l : List String) : TaskUpdateInput :=
  { blankPatch with addBlockedBy := some l }

/-- A patch that only merges metadata. -/
def metadataPatch (p : MetaObj) : TaskUpdateInput :=
  { blankPatch with metadata := some p }

/-- A patch that only sets the status. -/
def statusPatch (s : TaskStatus) : TaskUpdateInput :=
  { blankPatch with status := some s }

/-- Every stored task has duplicate-free `blocks` and `blockedBy` lists. -/
def EdgeNodup (files : List (String × Task)) : Prop :=
  ∀ e ∈ files, e.2.blocks.Nodup ∧ e.2.blockedBy.Nodup

/-- `Math.max` over a list of naturals (`0` for the empty list). -/
def maxNatList : List Nat → Nat
  | [] => 0
  | x :: xs => xs.foldl Nat.max x

end TaskStore

namespace Examples

open AcpModel TaskStore

/-- The id scenario: three consecutive creates on an empty list. -/
def sc1 : Task × StoreState := create (freshStore []) runTestsInput

/-- Second create of the scenario. -/
def sc2 : Task × StoreState := create sc1.2 runTestsInput

/-- Third create of the scenario. -/
def sc3 : Task × StoreState := create sc2.2 runTestsInput

/-- The store reopened over the same directory (simulated restart: a fresh
uninitialized instance over the files left behind). -/
def scReopened : StoreState := freshStore sc3.2.files

/-- The create after the restart. -/
def sc4 : Task × StoreState := create scReopened runTestsInput

/-- A task carrying metadata `{key1: "v1"}`. -/
def metaTask : Task :=
  { plainTask "1" with metadata := some [("key1", MetaVal.str "v1")] }

/-- An initialized store holding `metaTask`. -/
def metaStore : StoreState :=
  { files := [("1", metaTask)], nextId := 2, initialized := true }

/-- `metaTask` after merging the patch `{key2: "v2"}`. -/
def metaTask2 : Task :=
  { plainTask "1" with
      metadata := some [("key1", MetaVal.str "v1"), ("key2", MetaVal.str "v2")] }

/-- The store holding `metaTask2`. -/
def metaStore2 : StoreState :=
  { files := [("1", metaTask2)], nextId := 2, initialized := true }

/-- `metaTask2` after the deleting patch `{key1: null}`. -/
def metaTask3 : Task :=
  { plainTask "1" with metadata := some [("key2", MetaVal.str "v2")] }

/-- The store holding `metaTask3`. -/
def metaStore3 : StoreState :=
  { files := [("1", metaTask3)], nextId := 2, initialized := true }

/-- The stored state of task `"1"` after `update("1", {addBlocks:["1"]})`
on `singleStore`: the self edge appears in `blocks` but the mirrored write
to `blockedBy` is overwritten by the final save. -/
def selfEdgeTask : Task := { plainTask "1" with blocks := ["1"] }

/-- The store after the self-edge update. -/
def selfEdgeStore : StoreState :=
  { files := [("1", selfEdgeTask)], nextId := 2, initialized := true }

/-- Task `"1"` of `pairStore` after `update("1", {addBlocks:["2"]})`. -/
def pairTaskA : Task := { plainTask "1" with blocks := ["2"] }

/-- Task `"2"` of `pairStore` after the same update. -/
def pairTaskB : Task := { plainTask "2" with blockedBy := ["1"] }

/-- `pairStore` after `update("1", {addBlocks:["2"]})`. -/
def pairStoreAfter : StoreState :=
  { files := [("1", pairTaskA), ("2", pairTaskB)]
    nextId := 3, initialized := true }

end Examples

namespace AcpModel

/-- Key membership characterizes `containsKey`. -/
theorem containsKey_iff {α : Type} {l : List (String × α)} {k : String} :
    containsKey l k = true ↔ k ∈ keysOf l := by
  induction l with
  | nil => simp [containsKey, keysOf]
  | cons e rest ih =>
      by_cases h : e.1 = k
      · simp [containsKey, keysOf, h]
      · simp only [containsKey, keysOf, List.map_cons, List.mem_cons, if_neg h, ih]
        constructor
        · exact fun hmem => Or.inr hmem
        · rintro (hk | hmem)
          · exact absurd hk.symm h
          · exact hmem

/-- A successful lookup witnesses key membership. -/
theorem containsKey_of_mapGet {α : Type} {l : List (String × α)} {k : String}
    {v : α} (h : mapGet l k = some v) : containsKey l k = true := by
  induction l with
  | nil => simp [mapGet] at h
  | cons e rest ih =>
      by_cases he : e.1 = k
      · simp [containsKey, he]
      · simp only [mapGet, if_neg he] at h
        simp [containsKey, he, ih h]

/-- A successful lookup returns an entry of the list. -/
theorem mapGet_some_mem {α : Type} {l : List (String × α)} {k : String}
    {v : α} (h : mapGet l k = some v) : (k, v) ∈ l := by
  induction l with
  | nil => simp [mapGet] at h
  | cons e rest ih =>
      by_cases he : e.1 = k
      · simp only [mapGet, if_pos he, Option.some.injEq] at h
        have hkv : (k, v) = e := by
          cases e
          simp_all
        rw [hkv]
        exact List.mem_cons_self e rest
      · simp only [mapGet, if_neg he] at h
        exact List.mem_cons_of_mem _ (ih h)

/-- Replacing an absent key changes nothing. -/
theorem replaceKey_not_contains {α : Type} {l : List (String × α)}
    {k : String} (h : containsKey l k = false) (v : α) :
    replaceKey l k v = l := by
  induction l with
  | nil => simp [replaceKey]
  | cons e rest ih =>
      by_cases he : e.1 = k
      · simp [containsKey, he] at h
      · simp only [containsKey, if_neg he] at h
        simp [replaceKey, he, ih h]

/-- Lookup in `replaceKey` at the replaced key. -/
theorem mapGet_replaceKey_self {α : Type} {l : List (String × α)}
    {k : String} (h : containsKey l k = true) (v : α) :
    mapGet (replaceKey l k v) k = some v := by
  induction l with
  | nil => simp [containsKey] at h
  | cons e rest ih =>
      by_cases he : e.1 = k
      · simp [replaceKey, mapGet, he]
      · simp only [containsKey, if_neg he] at h
        simp [replaceKey, mapGet, he, ih h]

/-- Lookup in `replaceKey` at any other key. -/
theorem mapGet_replaceKey_ne {α : Type} (l : List (String × α))
    {k k' : String} (h : k' ≠ k) (v : α) :
    mapGet (replaceKey l k v) k' = mapGet l k' := by
  induction l with
  | nil => simp [replaceKey]
  | cons e rest ih =>
      by_cases he : e.1 = k
      · have he' : ¬ e.1 = k' := fun hk => h (by rw [← hk, he])
        have hkk' : ¬ k = k' := fun hk => h hk.symm
        simp [replaceKey, mapGet, he, he', hkk', ih]
      · by_cases he' : e.1 = k'
        · simp [replaceKey, mapGet, he, he', h]
        · simp [replaceKey, mapGet, he, he', h, ih]

/-- Appending a fresh entry is invisible to lookups of present keys. -/
theorem mapGet_append_single {α : Type} (l : List (String × α))
    (k k' : String) (v : α) :
    mapGet (l ++ [(k, v)]) k' = if containsKey l k' then mapGet l k'
      else if k = k' then some v else none := by
  induction l with
  | nil => simp [mapGet, containsKey]
  | cons e rest ih =>
      by_cases he : e.1 = k'
      · simp [mapGet, containsKey, he]
      · simp [mapGet, containsKey, he, ih]

/-- Lookup after `mapSet` at the written key. -/
theorem mapGet_mapSet_self {α : Type} (l : List (String × α)) (k : String)
    (v : α) : mapGet (mapSet l k v) k = some v := by
  unfold mapSet
  by_cases hc : containsKey l k
  · simp [hc, mapGet_replaceKey_self hc]
  · simp only [hc, Bool.false_eq_true, if_false]
    rw [mapGet_append_single]
    simp [hc]

/-- Lookup after `mapSet` at a different key. -/
theorem mapGet_mapSet_ne {α : Type} (l : List (String × α)) {k k' : String}
    (h : k' ≠ k) (v : α) : mapGet (mapSet l k v) k' = mapGet l k' := by
  unfold mapSet
  by_cases hc : containsKey l k
  · simp [hc, mapGet_replaceKey_ne l h]
  · simp only [hc, Bool.false_eq_true, if_false]
    rw [mapGet_append_single]
    by_cases hc' : containsKey l k'
    · simp [hc']
    · have hne : ¬ k = k' := fun hk => h hk.symm
      simp only [hc', Bool.false_eq_true, if_false, if_neg hne]
      cases hg : mapGet l k' with
      | none => rfl
      | some w => exact absurd (containsKey_of_mapGet hg) (by simp [hc'])

/-- Lookup after `mapDelete` at the deleted key. -/
theorem mapGet_mapDelete_self {α : Type} (l : List (String × α))
    (k : String) : mapGet (mapDelete l k) k = none := by
  induction l with
  | nil => simp [mapDelete, mapGet]
  | cons e rest ih =>
      by_cases he : e.1 = k
      · simpa [mapDelete, he] using ih
      · simpa [mapDelete, mapGet, he] using ih

/-- Lookup after `mapDelete` at a different key. -/
theorem mapGet_mapDelete_ne {α : Type} (l : List (String × α)) {k k' : String}
    (h : k' ≠ k) : mapGet (mapDelete l k) k' = mapGet l k' := by
  induction l with
  | nil => simp [mapDelete]
  | cons e rest ih =>
      by_cases he : e.1 = k
      · have he' : ¬ e.1 = k' := fun hk => h (by rw [← hk, he])
        simpa [mapDelete, mapGet, he, he', h.symm] using ih
      · by_cases he' : e.1 = k'
        · simp [mapDelete, mapGet, he, he', h]
        · simpa [mapDelete, mapGet, he, he', h] using ih

/-- `replaceKey` preserves the key list. -/
theorem keysOf_replaceKey {α : Type} (l : List (String × α)) (k : String)
    (v : α) : keysOf (replaceKey l k v) = keysOf l := by
  induction l with
  | nil => simp [replaceKey]
  | cons e rest ih =>
      by_cases he : e.1 = k
      · simp [replaceKey, keysOf, he, ih] at ih ⊢
        exact ih
      · simp [replaceKey, keysOf, he] at ih ⊢
        exact ih

/-- The key list of `mapSet`. -/
theorem keysOf_mapSet {α : Type} (l : List (String × α)) (k : String)
    (v : α) : keysOf (mapSet l k v) =
      if containsKey l k then keysOf l else keysOf l ++ [k] := by
  unfold mapSet
  by_cases hc : containsKey l k
  · simp [hc, keysOf_replaceKey]
  · simp [hc, keysOf]

/-- `containsKey` transfers along `mapSet`. -/
theorem containsKey_mapSet {α : Type} (l : List (String × α))
    (k k' : String) (v : α) :
    containsKey (mapSet l k v) k' = (containsKey l k' || decide (k' = k)) := by
  rcases hc' : containsKey l k' with hfalse | htrue
  · simp only [Bool.false_or]
    rcases hd : decide (k' = k) with hdf | hdt
    · have hne : k' ≠ k := by simpa using hd
      have : ¬ k' ∈ keysOf (mapSet l k v) := by
        rw [keysOf_mapSet]
        by_cases hck : containsKey l k
        · simpa [hck, ← containsKey_iff] using (by simp [hc'])
        · simp only [hck, Bool.false_eq_true, if_false, List.mem_append,
            List.mem_singleton]
          push_neg
          constructor
          · simpa [← containsKey_iff] using (by simp [hc'] : ¬ containsKey l k' = true)
          · exact hne
      simpa [← containsKey_iff] using this
    · have hk : k' = k := by simpa using hd
      subst hk
      exact containsKey_of_mapGet (mapGet_mapSet_self l k' v)
  · simp only [Bool.true_or]
    have : k' ∈ keysOf (mapSet l k v) := by
      rw [keysOf_mapSet]
      by_cases hck : containsKey l k
      · simpa [hck, ← containsKey_iff] using hc'
      · simp only [hck, Bool.false_eq_true, if_false, List.mem_append]
        exact Or.inl (containsKey_iff.mp hc')
    simpa [← containsKey_iff] using this

/-- `mapSet` keeps a duplicate-free key list duplicate-free. -/
theorem keysOf_mapSet_nodup {α : Type} {l : List (String × α)}
    (h : (keysOf l).Nodup) (k : String) (v : α) :
    (keysOf (mapSet l k v)).Nodup := by
  rw [keysOf_mapSet]
  by_cases hc : containsKey l k
  · simpa [hc] using h
  · simp only [hc, Bool.false_eq_true, if_false]
    refine List.Nodup.append h (List.nodup_singleton k) ?_
    intro a ha hb
    rw [List.mem_singleton] at hb
    subst hb
    exact absurd (containsKey_iff.mpr ha) (by simp [hc])

/-- Every entry of `mapSet l k v` is the new entry or an old one. -/
theorem mem_mapSet_cases {α : Type} {l : List (String × α)} {k : String}
    {v : α} {e : String × α} (h : e ∈ mapSet l k v) :
    e = (k, v) ∨ e ∈ l := by
  unfold mapSet at h
  by_cases hc : containsKey l k
  · rw [if_pos hc] at h
    clear hc
    induction l with
    | nil => simp [replaceKey] at h
    | cons f rest ih =>
        by_cases hf : f.1 = k
        · simp only [replaceKey, if_pos hf, List.mem_cons] at h
          rcases h with h | h
          · exact Or.inl h
          · rcases ih h with h' | h'
            · exact Or.inl h'
            · exact Or.inr (List.mem_cons_of_mem _ h')
        · simp only [replaceKey, if_neg hf, List.mem_cons] at h
          rcases h with h | h
          · exact Or.inr (h ▸ List.mem_cons_self f rest)
          · rcases ih h with h' | h'
            · exact Or.inl h'
            · exact Or.inr (List.mem_cons_of_mem _ h')
  · rw [if_neg hc, List.mem_append, List.mem_singleton] at h
    tauto

/-- Writing twice to the same key collapses to the last write. -/
theorem mapSet_mapSet_same {α : Type} (l : List (String × α)) (k : String)
    (v w : α) : mapSet (mapSet l k v) k w = mapSet l k w := by
  have hrr : ∀ (m : List (String × α)),
      replaceKey (replaceKey m k v) k w = replaceKey m k w := by
    intro m
    induction m with
    | nil => simp [replaceKey]
    | cons f rest ih =>
        by_cases hf : f.1 = k
        · simp [replaceKey, hf, ih]
        · simp [replaceKey, hf, ih]
  unfold mapSet
  by_cases hc : containsKey l k
  · have hc2 : containsKey (replaceKey l k v) k = true := by
      rw [containsKey_iff, keysOf_replaceKey]
      exact containsKey_iff.mp hc
    simp [hc, hc2, hrr]
  · have hc2 : containsKey (l ++ [(k, v)]) k = true := by
      rw [containsKey_iff]
      simp [keysOf]
    simp only [hc, Bool.false_eq_true, if_false, hc2, if_true]
    have happ : ∀ (m m' : List (String × α)),
        replaceKey (m ++ m') k w = replaceKey m k w ++ replaceKey m' k w := by
      intro m m'
      induction m with
      | nil => simp [replaceKey]
      | cons f rest ih =>
          by_cases hf : f.1 = k
          · simp [replaceKey, hf, ih]
          · simp [replaceKey, hf, ih]
    rw [happ, replaceKey_not_contains (by simpa using hc)]
    simp [replaceKey]

/-- With duplicate-free keys, rewriting the present binding is a no-op. -/
theorem mapSet_self_of_get {α : Type} {l : List (String × α)} {k : String}
    {v : α} (hnodup : (keysOf l).Nodup) (h : mapGet l k = some v) :
    mapSet l k v = l := by
  induction l with
  | nil => simp [mapGet] at h
  | cons e rest ih =>
      simp only [keysOf, List.map_cons, List.nodup_cons] at hnodup
      by_cases he : e.1 = k
      · simp only [mapGet, if_pos he, Option.some.injEq] at h
        have hrest : containsKey rest k = false := by
          rcases hck : containsKey rest k with hf | ht
          · rfl
          · exact absurd (he ▸ containsKey_iff.mp hck) hnodup.1
        have hcl : containsKey (e :: rest) k = true := by simp [containsKey, he]
        unfold mapSet
        rw [if_pos hcl]
        simp only [replaceKey, if_pos he, replaceKey_not_contains hrest]
        have : (k, v) = e := by
          cases e
          simp_all
        rw [this]
      · simp only [mapGet, if_neg he] at h
        have hck : containsKey rest k = true := containsKey_of_mapGet h
        have hcl : containsKey (e :: rest) k = true := by
          simp [containsKey, he, hck]
        have ihr := ih hnodup.2 
        unfold mapSet at ihr ⊢
        rw [if_pos hcl]
        rw [if_pos hck] at ihr
        simp [replaceKey, he, ihr h]

/-- With duplicate-free keys, two entries sharing a key coincide. -/
theorem entry_eq_of_key_eq {α : Type} {l : List (String × α)}
    (hnodup : (keysOf l).Nodup) {p q : String × α}
    (hp : p ∈ l) (hq : q ∈ l) (hk : p.1 = q.1) : p = q := by
  induction l with
  | nil => simp at hp
  | cons e rest ih =>
      simp only [keysOf, List.map_cons, List.nodup_cons] at hnodup
      rcases List.mem_cons.mp hp with hp' | hp' <;>
        rcases List.mem_cons.mp hq with hq' | hq'
      · rw [hp', hq']
      · exfalso
        apply hnodup.1
        rw [← hp', hk]
        exact List.mem_map_of_mem Prod.fst hq'
      · exfalso
        apply hnodup.1
        rw [← hq', ← hk]
        exact List.mem_map_of_mem Prod.fst hp'
      · exact ih hnodup.2 hp' hq'

/-- The added element is in the set. -/
theorem mem_setAdd_self (l : List String) (x : String) : x ∈ setAdd l x := by
  unfold setAdd
  by_cases h : x ∈ l
  · simpa [h] using h
  · simp [h]

/-- `setAdd` keeps old members. -/
theorem mem_setAdd_of_mem {l : List String} {y : String} (h : y ∈ l)
    (x : String) : y ∈ setAdd l x := by
  unfold setAdd
  by_cases hx : x ∈ l
  · simpa [hx] using h
  · simp [hx, h]

/-- The deleted element is gone. -/
theorem not_mem_setDelete_self (l : List String) (x : String) :
    x ∉ setDelete l x := by
  induction l with
  | nil => simp [setDelete]
  | cons y rest ih =>
      by_cases hy : y = x
      · simpa [setDelete, hy] using ih
      · simp [setDelete, hy, ih]
        exact fun h => absurd h.symm hy

/-- `setDelete` only removes. -/
theorem mem_setDelete_sub {l : List String} {x y : String}
    (h : y ∈ setDelete l x) : y ∈ l := by
  induction l with
  | nil => simpa [setDelete] using h
  | cons z rest ih =>
      by_cases hz : z = x
      · rw [setDelete, if_pos hz] at h
        exact List.mem_cons_of_mem _ (ih h)
      · rw [setDelete, if_neg hz] at h
        rcases List.mem_cons.mp h with h' | h'
        · exact h' ▸ List.mem_cons_self z rest
        · exact List.mem_cons_of_mem _ (ih h')

/-- `mapDelete` only removes entries. -/
theorem mem_mapDelete_sub {α : Type} {l : List (String × α)} {k : String}
    {e : String × α} (h : e ∈ mapDelete l k) : e ∈ l := by
  induction l with
  | nil => simpa [mapDelete] using h
  | cons f rest ih =>
      by_cases hf : f.1 = k
      · rw [mapDelete, if_pos hf] at h
        exact List.mem_cons_of_mem _ (ih h)
      · rw [mapDelete, if_neg hf] at h
        rcases List.mem_cons.mp h with h' | h'
        · exact h' ▸ List.mem_cons_self f rest
        · exact List.mem_cons_of_mem _ (ih h')

end AcpModel

namespace SubagentTracker

open AcpModel

/-- Serialization round-trips field by field. -/
theorem ofSerialized_toSerialized (s : TrackedSubagent) :
    ofSerialized (toSerialized s) = s := rfl

/-- The `subagents` component of the `cleanup` sweep is a fold of key
deletions. -/
theorem cleanupGo_subagents (now maxAgeMs : Nat) :
    ∀ (l : List (String × TrackedSubagent)) (st : TrackerState) (n : Nat),
      ((cleanupGo now maxAgeMs l st n).1).subagents =
        l.foldl (fun m e =>
          if shouldRemove now maxAgeMs e.2 then mapDelete m e.1 else m)
          st.subagents := by
  intro l
  induction l with
  | nil => intro st n; simp [cleanupGo]
  | cons e rest ih =>
      intro st n
      by_cases h : shouldRemove now maxAgeMs e.2
      · simp [cleanupGo, h, ih, removeEntry]
      · simp [cleanupGo, h, ih]

/-- `mapDelete` is a key filter. -/
theorem mapDelete_eq_filter {α : Type} (l : List (String × α)) (k : String) :
    mapDelete l k = l.filter (fun e => decide (e.1 ≠ k)) := by
  induction l with
  | nil => simp [mapDelete]
  | cons e rest ih =>
      by_cases he : e.1 = k
      · simp [mapDelete, he, ih]
      · simp [mapDelete, he, ih]

/-- A fold of key deletions filters out exactly the removed keys. -/
theorem foldl_mapDelete_filter {α : Type} (p : (String × α) → Bool) :
    ∀ (l m : List (String × α)),
      l.foldl (fun acc e => if p e then mapDelete acc e.1 else acc) m
        = m.filter (fun q => decide (q.1 ∉ (l.filter p).map Prod.fst)) := by
  intro l
  induction l with
  | nil => intro m; simp
  | cons e rest ih =>
      intro m
      by_cases hp : p e
      · simp only [List.foldl_cons, if_pos hp, List.filter_cons, hp, if_true]
        rw [ih, mapDelete_eq_filter, List.filter_filter]
        apply List.filter_congr
        intro q _
        by_cases h1 : q.1 = e.1 <;> by_cases h2 : q.1 ∈ (rest.filter p).map Prod.fst <;>
          simp [h1, h2]
      · have h1 : (if p e = true then mapDelete m e.1 else m) = m := if_neg hp
        have h2 : List.filter p (e :: rest) = List.filter p rest := by
          simp [List.filter_cons, hp]
        rw [List.foldl_cons, h1, ih, h2]

/-- The removed count of the `cleanup` sweep. -/
theorem cleanupGo_count (now maxAgeMs : Nat) :
    ∀ (l : List (String × TrackedSubagent)) (st : TrackerState) (n : Nat),
      (cleanupGo now maxAgeMs l st n).2 =
        n + (l.filter (fun e => shouldRemove now maxAgeMs e.2)).length := by
  intro l
  induction l with
  | nil => intro st n; simp [cleanupGo]
  | cons e rest ih =>
      intro st n
      by_cases h : shouldRemove now maxAgeMs e.2
      · simp [cleanupGo, h, ih]
        omega
      · simp [cleanupGo, h, ih]

/-- `removeEntry` never grows a session set. -/
theorem removeEntry_session_subset (st : TrackerState) (i : String)
    (s : TrackedSubagent) (sid x : String)
    (h : x ∈ sessionSetOf (removeEntry st i s) sid) :
    x ∈ sessionSetOf st sid := by
  have hs : (removeEntry st i s).sessionSubagents =
      (match mapGet st.sessionSubagents s.parentSessionId with
       | some set => mapSet st.sessionSubagents s.parentSessionId (setDelete set i)
       | none => st.sessionSubagents) := rfl
  unfold sessionSetOf at h ⊢
  rw [hs] at h
  cases hg : mapGet st.sessionSubagents s.parentSessionId with
  | none => rw [hg] at h; exact h
  | some set =>
      rw [hg] at h
      by_cases hsid : sid = s.parentSessionId
      · subst hsid
        rw [mapGet_mapSet_self] at h
        simp only [Option.getD_some] at h
        rw [hg]
        exact mem_setDelete_sub h
      · rw [mapGet_mapSet_ne _ hsid] at h
        exact h

/-- `removeEntry` removes the entry's id from its session's set. -/
theorem removeEntry_session_self (st : TrackerState) (i : String)
    (s : TrackedSubagent) :
    i ∉ sessionSetOf (removeEntry st i s) s.parentSessionId := by
  have hs : (removeEntry st i s).sessionSubagents =
      (match mapGet st.sessionSubagents s.parentSessionId with
       | some set => mapSet st.sessionSubagents s.parentSessionId (setDelete set i)
       | none => st.sessionSubagents) := rfl
  unfold sessionSetOf
  rw [hs]
  cases hg : mapGet st.sessionSubagents s.parentSessionId with
  | none => simp [hg]
  | some set =>
      simp only
      rw [mapGet_mapSet_self]
      simp only [Option.getD_some]
      exact not_mem_setDelete_self set i

/-- Once absent from a session set, an id stays absent across the sweep. -/
theorem cleanupGo_session_mono (now maxAgeMs : Nat) :
    ∀ (l : List (String × TrackedSubagent)) (st : TrackerState) (n : Nat)
      (sid x : String), x ∉ sessionSetOf st sid →
      x ∉ sessionSetOf ((cleanupGo now maxAgeMs l st n).1) sid := by
  intro l
  induction l with
  | nil => intro st n sid x h; simpa [cleanupGo] using h
  | cons e rest ih =>
      intro st n sid x h
      by_cases hr : shouldRemove now maxAgeMs e.2
      · simp only [cleanupGo, if_pos hr]
        exact ih _ _ _ _ (fun hmem =>
          h (removeEntry_session_subset st e.1 e.2 sid x hmem))
      · simp only [cleanupGo, if_neg hr]
        exact ih _ _ _ _ h

/-- A `none` reverse-index lookup stays `none` across the sweep. -/
theorem cleanupGo_agent_mono (now maxAgeMs : Nat) :
    ∀ (l : List (String × TrackedSubagent)) (st : TrackerState) (n : Nat)
      (a : String), mapGet st.agentIdToSubagent a = none →
      mapGet ((cleanupGo now maxAgeMs l st n).1).agentIdToSubagent a = none := by
  intro l
  induction l with
  | nil => intro st n a h; simpa [cleanupGo] using h
  | cons e rest ih =>
      intro st n a h
      by_cases hr : shouldRemove now maxAgeMs e.2
      · simp only [cleanupGo, if_pos hr]
        apply ih
        unfold removeEntry
        cases hag : e.2.agentId with
        | none => simpa using h
        | some b =>
            by_cases hb : b = ""
            · simpa [hb] using h
            · simp only [hb, if_neg, ne_eq, not_false_iff, if_true]
              by_cases hab : a = b
              · subst hab; exact mapGet_mapDelete_self _ a
              · rw [mapGet_mapDelete_ne _ hab]; exact h
      · simp only [cleanupGo, if_neg hr]
        exact ih _ _ _ h

/-- Each removed entry disappears from the session index and (when its
agent id is truthy) from the reverse index. -/
theorem cleanupGo_removed_index (now maxAgeMs : Nat) :
    ∀ (l : List (String × TrackedSubagent)) (st : TrackerState) (n : Nat)
      (e : String × TrackedSubagent), e ∈ l →
      shouldRemove now maxAgeMs e.2 = true →
      e.1 ∉ sessionSetOf ((cleanupGo now maxAgeMs l st n).1) e.2.parentSessionId ∧
      (∀ a, truthyAgent e.2.agentId = some a →
        mapGet ((cleanupGo now maxAgeMs l st n).1).agentIdToSubagent a = none) := by
  intro l
  induction l with
  | nil => intro st n e he; simp at he
  | cons f rest ih =>
      intro st n e he hr
      rcases List.mem_cons.mp he with hef | herest
      · subst hef
        simp only [cleanupGo, if_pos hr]
        constructor
        · exact cleanupGo_session_mono now maxAgeMs rest _ _ _ _
            (removeEntry_session_self st e.1 e.2)
        · intro a ha
          apply cleanupGo_agent_mono
          have hag2 : (removeEntry st e.1 e.2).agentIdToSubagent =
              (match e.2.agentId with
               | some b => if b ≠ "" then mapDelete st.agentIdToSubagent b
                           else st.agentIdToSubagent
               | none => st.agentIdToSubagent) := rfl
          rw [hag2]
          cases hag : e.2.agentId with
          | none =>
              rw [hag] at ha
              exact absurd ha (by simp [truthyAgent])
          | some b =>
              rw [hag] at ha
              simp only [truthyAgent] at ha
              by_cases hb : b = ""
              · rw [if_pos hb] at ha; exact absurd ha (by simp)
              · rw [if_neg hb] at ha
                have hab : a = b := by simpa using ha.symm
                subst hab
                simp only [ne_eq, hb, not_false_iff, if_true]
                exact mapGet_mapDelete_self _ a
      · by_cases hf : shouldRemove now maxAgeMs f.2
        · simp only [cleanupGo, if_pos hf]
          exact ih _ _ _ herest hr
        · simp only [cleanupGo, if_neg hf]
          exact ih _ _ _ herest hr

end SubagentTracker

namespace SubagentTracker

open AcpModel

/-- The removal test in claim language. -/
theorem shouldRemove_iff (now maxAgeMs : Nat) (s : TrackedSubagent) :
    shouldRemove now maxAgeMs s = true ↔
      (isTerminal s.status = true ∧ ∃ c, s.completedAt = some c ∧ c ≠ 0 ∧
        (now : Int) - (c : Int) > (maxAgeMs : Int)) := by
  cases hc : s.completedAt with
  | none => simp [shouldRemove, hc]
  | some c =>
      simp only [shouldRemove, hc, Bool.and_eq_true, decide_eq_true_eq,
        Option.some.injEq]
      constructor
      · rintro ⟨ht, hnz, hgt⟩
        exact ⟨ht, c, rfl, hnz, hgt⟩
      · rintro ⟨ht, c', hce, hnz, hgt⟩
        cases hce
        exact ⟨ht, hnz, hgt⟩

/-- A pending or running subagent never satisfies the removal test. -/
theorem shouldRemove_false_of_live (now maxAgeMs : Nat)
    (s : TrackedSubagent) (h : s.status = .pending ∨ s.status = .running) :
    shouldRemove now maxAgeMs s = false := by
  rcases h with h | h <;> simp [shouldRemove, isTerminal, h]

/-- C2 (amended): `cleanup(maxAgeMs)` keeps exactly the entries failing the
removal test; the removal test holds exactly of terminal entries whose
`completedAt` is present and nonzero with `now - completedAt > maxAgeMs`;
pending and running entries are always kept; each removed entry's id leaves
its session's index set and its truthy agent id leaves the reverse index;
and the returned count is the number of removed entries.  (The amendment
relative to the claim is the "nonzero" qualification: the source tests
`subagent.completedAt &&`, so a recorded `completedAt` of `0` is treated as
unset.) -/
theorem cleanup_spec (now maxAgeMs : Nat) (st : TrackerState)
    (hkeys : (keysOf st.subagents).Nodup) :
    (cleanup now maxAgeMs st).1.subagents
        = st.subagents.filter (fun e => !shouldRemove now maxAgeMs e.2) ∧
    (∀ e ∈ st.subagents, (shouldRemove now maxAgeMs e.2 = true ↔
        (isTerminal e.2.status = true ∧ ∃ c, e.2.completedAt = some c ∧ c ≠ 0 ∧
          (now : Int) - (c : Int) > (maxAgeMs : Int)))) ∧
    ((cleanup now maxAgeMs st).2
        = (st.subagents.filter (fun e => shouldRemove now maxAgeMs e.2)).length) ∧
    (∀ e ∈ st.subagents, (e.2.status = .pending ∨ e.2.status = .running) →
        e ∈ (cleanup now maxAgeMs st).1.subagents) ∧
    (∀ e ∈ st.subagents, shouldRemove now maxAgeMs e.2 = true →
        e.1 ∉ sessionSetOf (cleanup now maxAgeMs st).1 e.2.parentSessionId ∧
        (∀ a, truthyAgent e.2.agentId = some a →
          mapGet (cleanup now maxAgeMs st).1.agentIdToSubagent a = none)) := by
  have hfilter : (cleanup now maxAgeMs st).1.subagents
      = st.subagents.filter (fun e => !shouldRemove now maxAgeMs e.2) := by
    unfold cleanup
    rw [cleanupGo_subagents, foldl_mapDelete_filter]
    apply List.filter_congr
    intro q hq
    by_cases hr : shouldRemove now maxAgeMs q.2
    · have hmem : q.1 ∈ (st.subagents.filter
          (fun e => shouldRemove now maxAgeMs e.2)).map Prod.fst :=
        List.mem_map_of_mem Prod.fst (List.mem_filter.mpr ⟨hq, hr⟩)
      simp [hmem, hr]
    · have hnmem : q.1 ∉ (st.subagents.filter
          (fun e => shouldRemove now maxAgeMs e.2)).map Prod.fst := by
        intro hmem
        rcases List.mem_map.mp hmem with ⟨r, hrmem, hkey⟩
        have hr' := (List.mem_filter.mp hrmem)
        have : r = q := entry_eq_of_key_eq hkeys hr'.1 hq hkey
        rw [this] at hr'
        exact hr hr'.2
      simp [hnmem, hr]
  refine ⟨hfilter, ?_, ?_, ?_, ?_⟩
  · intro e _
    exact shouldRemove_iff now maxAgeMs e.2
  · unfold cleanup
    rw [cleanupGo_count]
    omega
  · intro e he hlive
    rw [hfilter]
    exact List.mem_filter.mpr ⟨he, by
      simp [shouldRemove_false_of_live now maxAgeMs e.2 hlive]⟩
  · intro e he hr
    unfold cleanup
    exact cleanupGo_removed_index now maxAgeMs st.subagents st 0 e he hr

/-- Witness for `cleanup_spec` at a concrete two-entry tracker: the stale
completed entry is swept, the running one stays. -/
theorem cleanup_spec_witness :
    (keysOf Examples.mixedTracker.subagents).Nodup ∧
    (cleanup 100 10 Examples.mixedTracker).1.subagents
      = Examples.mixedTracker.subagents.filter
          (fun e => !shouldRemove 100 10 e.2) := by
  exact ⟨by decide, (cleanup_spec 100 10 Examples.mixedTracker (by decide)).1⟩

/-- C2 (counterexample to the claim as stated): a completed entry whose
`completedAt` is recorded as `0` is strictly older than `maxAgeMs = 0` at
`now = 1`, yet `cleanup` removes nothing and returns 0, because the JS
truthiness test `subagent.completedAt &&` treats the timestamp `0` as
unset. -/
theorem cleanup_completedAt_zero_kept :
    (Examples.zeroCompleted.status = .completed ∧
      Examples.zeroCompleted.completedAt = some 0 ∧
      (1 : Int) - ((0 : Nat) : Int) > ((0 : Nat) : Int)) ∧
    (cleanup 1 0 Examples.zeroCompletedTracker).2 = 0 ∧
    mapGet (cleanup 1 0 Examples.zeroCompletedTracker).1.subagents "s1"
      = some Examples.zeroCompleted := by
  decide

end SubagentTracker

namespace SubagentTracker

open AcpModel

/-- `importStep` stores the rebuilt subagent under the task's id. -/
theorem importStep_subagents (st : TrackerState) (t : SerializedTask) :
    (importStep st t).subagents = mapSet st.subagents t.id (ofSerialized t) := by
  unfold importStep
  cases t.agentId with
  | none => rfl
  | some a =>
      by_cases ha : a ≠ ""
      · simp [ha]
      · simp [ha]

/-- `importStep` adds the task's id to its session's set. -/
theorem importStep_sessions (st : TrackerState) (t : SerializedTask) :
    (importStep st t).sessionSubagents =
      sessionAdd st.sessionSubagents t.parentSessionId t.id := by
  unfold importStep
  cases t.agentId with
  | none => rfl
  | some a =>
      by_cases ha : a ≠ ""
      · simp [ha]
      · simp [ha]

/-- The reverse index after `importStep`. -/
theorem importStep_agents (st : TrackerState) (t : SerializedTask) :
    (importStep st t).agentIdToSubagent =
      (match truthyAgent t.agentId with
       | some a => mapSet st.agentIdToSubagent a t.id
       | none => st.agentIdToSubagent) := by
  unfold importStep truthyAgent
  cases t.agentId with
  | none => rfl
  | some a =>
      by_cases ha : a = ""
      · simp [ha]
      · simp [ha]

/-- Subagent lookups at ids not imported are untouched by the import fold. -/
theorem importFold_get_of_not_mem :
    ∀ (tasks : List SerializedTask) (st : TrackerState) (k : String),
      (∀ t ∈ tasks, t.id ≠ k) →
      mapGet ((tasks.foldl importStep st).subagents) k = mapGet st.subagents k := by
  intro tasks
  induction tasks with
  | nil => intro st k _; rfl
  | cons t rest ih =>
      intro st k h
      rw [List.foldl_cons, ih _ _ (fun u hu => h u (List.mem_cons_of_mem t hu)),
        importStep_subagents,
        mapGet_mapSet_ne _ (fun hk => h t (List.mem_cons_self t rest) hk.symm)]

/-- Each imported task is afterwards stored under its id (unique ids). -/
theorem importFold_get_of_mem :
    ∀ (tasks : List SerializedTask) (st : TrackerState) (t : SerializedTask),
      t ∈ tasks → (tasks.map (fun x => x.id)).Nodup →
      mapGet ((tasks.foldl importStep st).subagents) t.id
        = some (ofSerialized t) := by
  intro tasks
  induction tasks with
  | nil => intro st t ht; simp at ht
  | cons u rest ih =>
      intro st t ht hnodup
      simp only [List.map_cons, List.nodup_cons] at hnodup
      rcases List.mem_cons.mp ht with ht' | ht'
      · subst ht'
        rw [List.foldl_cons,
          importFold_get_of_not_mem rest _ t.id
            (fun v hv hvk => hnodup.1 (hvk ▸ List.mem_map_of_mem (fun x => x.id) hv)),
          importStep_subagents, mapGet_mapSet_self]
      · exact ih _ t ht' hnodup.2

/-- Session membership survives the import fold. -/
theorem importFold_session_mono :
    ∀ (tasks : List SerializedTask) (st : TrackerState) (sid x : String),
      x ∈ sessionSetOf st sid →
      x ∈ sessionSetOf (tasks.foldl importStep st) sid := by
  intro tasks
  induction tasks with
  | nil => intro st sid x h; simpa using h
  | cons t rest ih =>
      intro st sid x h
      have hstep : x ∈ sessionSetOf (importStep st t) sid := by
        unfold sessionSetOf at h ⊢
        rw [importStep_sessions]
        unfold sessionAdd
        by_cases hsid : sid = t.parentSessionId
        · subst hsid
          rw [mapGet_mapSet_self]
          simp only [Option.getD_some]
          exact mem_setAdd_of_mem h t.id
        · rw [mapGet_mapSet_ne _ hsid]
          exact h
      exact ih (importStep st t) sid x hstep

/-- Each imported task's id lands in its session's set. -/
theorem importFold_session_of_mem :
    ∀ (tasks : List SerializedTask) (st : TrackerState) (t : SerializedTask),
      t ∈ tasks →
      t.id ∈ (mapGet ((tasks.foldl importStep st).sessionSubagents)
        t.parentSessionId).getD [] := by
  intro tasks
  induction tasks with
  | nil => intro st t ht; simp at ht
  | cons u rest ih =>
      intro st t ht
      rcases List.mem_cons.mp ht with ht' | ht'
      · subst ht'
        rw [List.foldl_cons]
        have hstep : t.id ∈ sessionSetOf (importStep st t) t.parentSessionId := by
          unfold sessionSetOf
          rw [importStep_sessions]
          unfold sessionAdd
          rw [mapGet_mapSet_self]
          simp only [Option.getD_some]
          exact mem_setAdd_self _ t.id
        have := importFold_session_mono rest (importStep st t)
          t.parentSessionId t.id hstep
        unfold sessionSetOf at this
        simpa using this
      · rw [List.foldl_cons]
        exact ih (importStep st u) t ht'

/-- Reverse-index lookups at agent ids never imported are untouched. -/
theorem importFold_agent_of_not_mem :
    ∀ (tasks : List SerializedTask) (st : TrackerState) (a : String),
      (∀ t ∈ tasks, truthyAgent t.agentId ≠ some a) →
      mapGet ((tasks.foldl importStep st).agentIdToSubagent) a
        = mapGet st.agentIdToSubagent a := by
  intro tasks
  induction tasks with
  | nil => intro st a _; rfl
  | cons t rest ih =>
      intro st a h
      rw [List.foldl_cons, ih _ _ (fun u hu => h u (List.mem_cons_of_mem t hu)),
        importStep_agents]
      cases hag : truthyAgent t.agentId with
      | none => rfl
      | some b =>
          have hb : b ≠ a := fun hba => h t (List.mem_cons_self t rest) (hba ▸ hag)
          exact mapGet_mapSet_ne _ (fun hk => hb hk.symm) t.id

/-- Each imported task with a truthy agent id is indexed by it afterwards
(assuming the truthy agent ids of the batch are pairwise distinct). -/
theorem importFold_agent_of_mem :
    ∀ (tasks : List SerializedTask) (st : TrackerState) (t : SerializedTask)
      (a : String), t ∈ tasks → truthyAgent t.agentId = some a →
      (tasks.filterMap (fun x => truthyAgent x.agentId)).Nodup →
      mapGet ((tasks.foldl importStep st).agentIdToSubagent) a = some t.id := by
  intro tasks
  induction tasks with
  | nil => intro st t a ht; simp at ht
  | cons u rest ih =>
      intro st t a ht hta hnodup
      rcases List.mem_cons.mp ht with ht' | ht'
      · subst ht'
        have hrest : ∀ v ∈ rest, truthyAgent v.agentId ≠ some a := by
          intro v hv hva
          rw [List.filterMap_cons, hta] at hnodup
          rw [List.nodup_cons] at hnodup
          exact hnodup.1 (List.mem_filterMap.mpr ⟨v, hv, hva⟩)
        rw [List.foldl_cons, importFold_agent_of_not_mem rest _ a hrest,
          importStep_agents, hta, mapGet_mapSet_self]
      · have hrestnodup : (rest.filterMap (fun x => truthyAgent x.agentId)).Nodup := by
          rw [List.filterMap_cons] at hnodup
          cases hu : truthyAgent u.agentId with
          | none => rwa [hu] at hnodup
          | some b =>
              rw [hu, List.nodup_cons] at hnodup
              exact hnodup.2
        rw [List.foldl_cons]
        exact ih (importStep st u) t a ht' hta hrestnodup

end SubagentTracker

namespace AcpModel

/-- A duplicate-free image list makes the mapped function injective on the
list's members. -/
theorem map_nodup_inj {α β : Type} {l : List α} {f : α → β}
    (h : (l.map f).Nodup) {x y : α} (hx : x ∈ l) (hy : y ∈ l)
    (hf : f x = f y) : x = y := by
  induction l with
  | nil => simp at hx
  | cons a rest ih =>
      simp only [List.map_cons, List.nodup_cons] at h
      rcases List.mem_cons.mp hx with hx' | hx' <;>
        rcases List.mem_cons.mp hy with hy' | hy'
      · rw [hx', hy']
      · exfalso
        apply h.1
        rw [← hx', hf]
        exact List.mem_map_of_mem f hy'
      · exfalso
        apply h.1
        rw [← hy', ← hf]
        exact List.mem_map_of_mem f hx'
      · exact ih h.2 hx' hy'

end AcpModel

namespace SubagentTracker

open AcpModel

/-- C1: `importState(exportState())` on a fresh tracker reproduces every
tracked subagent under its id with all fields equal (in particular id,
status, `createdAt`, `startedAt`, `completedAt`), puts its id back into its
session's index set, and points the reverse index at it for its truthy
agent id.  The hypotheses are the representation invariants of the class:
entries are keyed by their subagent's id, keys are unique, and distinct
subagents carry distinct truthy agent ids. -/
theorem importState_exportState_roundTrip (now : Nat) (st : TrackerState)
    (hids : ∀ e ∈ st.subagents, e.1 = e.2.id)
    (hkeys : (keysOf st.subagents).Nodup)
    (hagents : (st.subagents.filterMap
      (fun e => truthyAgent e.2.agentId)).Nodup) :
    ∀ e ∈ st.subagents,
      mapGet (importState emptyTracker (exportState now st)).subagents e.2.id
          = some e.2 ∧
      e.2.id ∈ sessionSetOf (importState emptyTracker (exportState now st))
          e.2.parentSessionId ∧
      (∀ a, truthyAgent e.2.agentId = some a →
        mapGet (importState emptyTracker
          (exportState now st)).agentIdToSubagent a = some e.2.id) := by
  intro e he
  have himp : importState emptyTracker (exportState now st)
      = (st.subagents.map (fun x => toSerialized x.2)).foldl importStep
          emptyTracker := by
    simp [importState, exportState]
  have ht : toSerialized e.2 ∈ st.subagents.map (fun x => toSerialized x.2) :=
    List.mem_map_of_mem _ he
  have hidnodup : ((st.subagents.map (fun x => toSerialized x.2)).map
      (fun x => x.id)).Nodup := by
    rw [List.map_map]
    have : st.subagents.map ((fun x : SerializedTask => x.id) ∘
        (fun x : String × TrackedSubagent => toSerialized x.2))
        = st.subagents.map Prod.fst := by
      apply List.map_congr_left
      intro a ha
      exact (hids a ha).symm
    rw [this]
    exact hkeys
  refine ⟨?_, ?_, ?_⟩
  · rw [himp]
    have := importFold_get_of_mem _ emptyTracker (toSerialized e.2) ht hidnodup
    rw [ofSerialized_toSerialized] at this
    exact this
  · rw [himp]
    exact importFold_session_of_mem _ emptyTracker (toSerialized e.2) ht
  · intro a ha
    rw [himp]
    have hagnodup : ((st.subagents.map (fun x => toSerialized x.2)).filterMap
        (fun x => truthyAgent x.agentId)).Nodup := by
      rw [List.filterMap_map]
      exact hagents
    exact importFold_agent_of_mem _ emptyTracker (toSerialized e.2) a ht ha
      hagnodup

/-- Witness for `importState_exportState_roundTrip` at a concrete tracker:
the completed subagent `"s2"` survives the round trip with its indices. -/
theorem importState_exportState_roundTrip_witness :
    mapGet (importState emptyTracker
        (exportState 90 Examples.mixedTracker)).subagents "s2"
      = some Examples.oldCompleted ∧
    "s2" ∈ sessionSetOf (importState emptyTracker
        (exportState 90 Examples.mixedTracker)) "sess" ∧
    mapGet (importState emptyTracker
        (exportState 90 Examples.mixedTracker)).agentIdToSubagent "agent-2"
      = some "s2" := by
  have h := importState_exportState_roundTrip 90 Examples.mixedTracker
    (by decide) (by decide) (by decide) ("s2", Examples.oldCompleted) (by decide)
  exact ⟨h.1, h.2.1, h.2.2 "agent-2" (by decide)⟩

end SubagentTracker

namespace TaskManager

open AcpModel SubagentTracker

/-- C6 (amended): for a version-1 snapshot with distinct task ids loaded
into an empty registry, a serialized task is imported exactly when its
`createdAt` strictly postdates the retention cutoff `now - maxTaskAgeMs` or
its status is `running`; every other task is dropped.  (The amendment
relative to the claim is the strictness at the boundary: the source keeps
`task.createdAt > cutoff`, so a task created exactly at the cutoff is
dropped unless running.) -/
theorem loadState_retention_filter (now maxTaskAgeMs : Nat)
    (state : SerializedTrackerState) (hv : state.version = 1)
    (hids : (state.tasks.map (fun t => t.id)).Nodup) :
    ∀ t ∈ state.tasks,
      (((t.createdAt : Int) > (now : Int) - (maxTaskAgeMs : Int) ∨
          t.status = .running) →
        mapGet (loadState now maxTaskAgeMs emptyTracker
          (some state)).subagents t.id = some (ofSerialized t)) ∧
      (¬((t.createdAt : Int) > (now : Int) - (maxTaskAgeMs : Int) ∨
          t.status = .running) →
        mapGet (loadState now maxTaskAgeMs emptyTracker
          (some state)).subagents t.id = none) := by
  intro t ht
  have hload : loadState now maxTaskAgeMs emptyTracker (some state)
      = (state.tasks.filter (fun u =>
          decide ((u.createdAt : Int) > (now : Int) - (maxTaskAgeMs : Int)) ||
            decide (u.status = .running))).foldl importStep emptyTracker := by
    simp [loadState, importState, hv]
  have hsub : (state.tasks.filter (fun u =>
      decide ((u.createdAt : Int) > (now : Int) - (maxTaskAgeMs : Int)) ||
        decide (u.status = .running))).Sublist state.tasks :=
    List.filter_sublist _
  constructor
  · intro hkeep
    rw [hload]
    apply importFold_get_of_mem
    · exact List.mem_filter.mpr ⟨ht, by
        rcases hkeep with hk | hk <;> simp [hk]⟩
    · exact ((hsub.map (fun t => t.id)).nodup hids)
  · intro hdrop
    rw [hload]
    have hnone : mapGet (emptyTracker.subagents) t.id = none := rfl
    rw [importFold_get_of_not_mem _ _ _ ?_]
    · exact hnone
    · intro u hu huid
      have humem : u ∈ state.tasks := hsub.mem hu
      have : u = t := map_nodup_inj hids humem ht huid
      subst this
      have := (List.mem_filter.mp hu).2
      apply hdrop
      simpa using this

/-- Witness for `loadState_retention_filter`: the old running task is kept,
the task at the cutoff is dropped. -/
theorem loadState_retention_filter_witness :
    mapGet (loadState 100 50 emptyTracker
        (some Examples.boundarySnapshot)).subagents "t2"
      = some (ofSerialized Examples.boundaryRunningTask) ∧
    mapGet (loadState 100 50 emptyTracker
        (some Examples.boundarySnapshot)).subagents "t1" = none := by
  have h2 := loadState_retention_filter 100 50 Examples.boundarySnapshot rfl
    (by decide) Examples.boundaryRunningTask (by decide)
  have h1 := loadState_retention_filter 100 50 Examples.boundarySnapshot rfl
    (by decide) Examples.boundaryOldTask (by decide)
  exact ⟨h2.1 (Or.inr rfl), h1.2 (by decide)⟩

/-- C6 (counterexample to the claim as stated): the claim keeps every task
whose `createdAt` does not predate the cutoff, but the source drops a
non-running task created exactly at the cutoff (`createdAt = 50`,
`now - maxTaskAgeMs = 100 - 50`). -/
theorem loadState_cutoff_boundary_dropped :
    Examples.boundarySnapshot.version = 1 ∧
    Examples.boundaryOldTask ∈ Examples.boundarySnapshot.tasks ∧
    ((Examples.boundaryOldTask.createdAt : Int) ≥
      (100 : Int) - (50 : Int)) ∧
    Examples.boundaryOldTask.status ≠ .running ∧
    mapGet (loadState 100 50 emptyTracker
      (some Examples.boundarySnapshot)).subagents "t1" = none := by
  decide

/-- C5: the save routine is a no-op when the dirty flag is clear; when
dirty it attempts the write, a mutation arriving mid-write leaves the flag
dirty again (so a later tick flushes it), and a failing write restores the
flag, logs the error without throwing, and leaves the snapshot on disk
unchanged; a clean successful write persists `exportState()`. -/
theorem saveState_dirty_protocol (now : Nat) (ctx : SaveContext) :
    (saveState now ctx).attemptedWrite = ctx.isDirty ∧
    (saveState now ctx).isDirty
      = (ctx.isDirty && (ctx.writeFails || ctx.eventDuringWrite)) ∧
    (saveState now ctx).errorLogged = (ctx.isDirty && ctx.writeFails) ∧
    (saveState now ctx).disk
      = (if ctx.isDirty && !ctx.writeFails
         then some (SubagentTracker.exportState now ctx.tracker)
         else ctx.disk) := by
  rcases ctx with ⟨d, tr, disk, ev, wf⟩
  cases d <;> cases ev <;> cases wf <;>
    simp [saveState]

end TaskManager

namespace TaskStore

open AcpModel

/-- A word matching the doubling pattern cannot end in `e` (its last
character is a consonant). -/
theorem endsWithE_false_of_matchesDoubling (v : String)
    (h : matchesDoubling v = true) : endsWithE v = false := by
  unfold matchesDoubling at h
  unfold endsWithE
  cases hr : v.data.reverse with
  | nil => rfl
  | cons c rest =>
      cases rest with
      | nil => rw [hr] at h; simp at h
      | cons b rest2 =>
          rw [hr] at h
          simp only [Bool.and_eq_true, decide_eq_true_eq] at h
          have hc : c ≠ 'e' := by
            intro hc
            subst hc
            exact absurd h.2 (by decide)
          simp [hc]

/-- The two orderings of the participle rules agree: the doubling test and
the silent-e test are mutually exclusive. -/
theorem claimParticipleOf_eq_participleOf (v : String) :
    claimParticipleOf v = participleOf v := by
  unfold claimParticipleOf participleOf
  by_cases hd : matchesDoubling v
  · rw [endsWithE_false_of_matchesDoubling _ hd]
    simp [hd]
  · simp [hd]

/-- The spec's ordering of the participle rules agrees with the source's. -/
theorem claimActiveForm_eq_generateActiveForm (s : String) :
    claimActiveForm s = generateActiveForm s := by
  unfold claimActiveForm generateActiveForm
  simp only [claimParticipleOf_eq_participleOf]

/-- C9: when `create` receives no explicit `activeForm`, the derived value
is the present-participle transform of the subject's first word as the spec
words it (doubling rule, then silent-e elision, then plain `ing`, first
letter capitalized, remaining words unchanged). -/
theorem create_activeForm_derivation (st : StoreState)
    (input : TaskCreateInput) (h : input.activeForm = none) :
    (create st input).1.activeForm = claimActiveForm input.subject := by
  rw [claimActiveForm_eq_generateActiveForm]
  simp [create, h]

/-- Witness for `create_activeForm_derivation`: subject `"Run tests"`
derives `"Running tests"` (final-consonant doubling). -/
theorem create_activeForm_derivation_witness :
    Examples.runTestsInput.activeForm = none ∧
    (create (freshStore []) Examples.runTestsInput).1.activeForm
      = "Running tests" := by
  refine ⟨rfl, ?_⟩
  rw [create_activeForm_derivation (freshStore []) Examples.runTestsInput rfl]
  decide

end TaskStore

namespace TaskStore

open AcpModel

/-- The numeric value of a digit character. -/
theorem digitChar_toNat {k : Nat} (h : k < 10) :
    (digitChar k).toNat = 48 + k := by
  interval_cases k <;> decide

/-- Digit characters are digits. -/
theorem digitChar_isDigit {k : Nat} (h : k < 10) :
    (digitChar k).isDigit = true := by
  interval_cases k <;> decide

/-- Digit characters do not match the whitespace skip of `parseInt`. -/
theorem digitChar_not_ws {k : Nat} (h : k < 10) :
    (decide (digitChar k = ' ') || decide (digitChar k = '\t') ||
      decide (digitChar k = '\n') || decide (digitChar k = '\r')) = false := by
  interval_cases k <;> decide

/-- Digit characters are not sign characters. -/
theorem digitChar_not_sign {k : Nat} (h : k < 10) :
    digitChar k ≠ '-' ∧ digitChar k ≠ '+' := by
  interval_cases k <;> exact ⟨by decide, by decide⟩

/-- Appending one digit multiplies the parsed value by ten and adds it. -/
theorem parseNatDigits_append_one (l : List Char) (c : Char) :
    parseNatDigits (l ++ [c]) = parseNatDigits l * 10 + (c.toNat - 48) := by
  unfold parseNatDigits
  rw [List.foldl_append]
  rfl

/-- The fuelled digit expansion parses back, consists of digit characters,
and is nonempty, whenever the fuel dominates the input. -/
theorem natDigitsRevAux_spec :
    ∀ (fuel n : Nat), n < fuel →
      parseNatDigits ((natDigitsRevAux fuel n).reverse) = n ∧
      (∀ c ∈ natDigitsRevAux fuel n, ∃ k, k < 10 ∧ c = digitChar k) ∧
      natDigitsRevAux fuel n ≠ [] := by
  intro fuel
  induction fuel with
  | zero => intro n h; omega
  | succ fuel ih =>
      intro n h
      by_cases h10 : n < 10
      · refine ⟨?_, ?_, by simp [natDigitsRevAux, h10]⟩
        · simp only [natDigitsRevAux, h10, if_true, List.reverse_singleton]
          show parseNatDigits ([] ++ [digitChar n]) = n
          rw [parseNatDigits_append_one]
          simp [parseNatDigits, digitChar_toNat h10]
        · intro c hc
          simp only [natDigitsRevAux, h10, if_true, List.mem_singleton] at hc
          exact ⟨n, h10, hc⟩
      · have hn0 : 0 < n := by omega
        have hdivlt : n / 10 < n := Nat.div_lt_self hn0 (by omega)
        have hdiv : n / 10 < fuel := by omega
        obtain ⟨h1, h2, h3⟩ := ih (n / 10) hdiv
        have hmod : n % 10 < 10 := Nat.mod_lt n (by omega)
        refine ⟨?_, ?_, by simp [natDigitsRevAux, h10]⟩
        · simp only [natDigitsRevAux, h10, if_false, List.reverse_cons]
          rw [parseNatDigits_append_one, h1, digitChar_toNat hmod]
          omega
        · intro c hc
          simp only [natDigitsRevAux, h10, if_false, List.mem_cons] at hc
          rcases hc with hc | hc
          · exact ⟨n % 10, hmod, hc⟩
          · exact h2 c hc

/-- `takeWhile` keeps a list all of whose members satisfy the test. -/
theorem takeWhile_all {p : Char → Bool} :
    ∀ (l : List Char), (∀ c ∈ l, p c = true) → l.takeWhile p = l := by
  intro l
  induction l with
  | nil => intro _; rfl
  | cons c rest ih =>
      intro h
      rw [List.takeWhile_cons, h c (List.mem_cons_self c rest),
        ih (fun d hd => h d (List.mem_cons_of_mem c hd))]
      simp

/-- `parseIntChars` on a nonempty all-digit list is the digit value. -/
theorem parseIntChars_digits (L : List Char)
    (hall : ∀ c ∈ L, ∃ k, k < 10 ∧ c = digitChar k) (hne : L ≠ []) :
    parseIntChars L = (parseNatDigits L : Int) := by
  cases L with
  | nil => exact absurd rfl hne
  | cons c cs =>
      obtain ⟨k, hk, hck⟩ := hall c (List.mem_cons_self c cs)
      unfold parseIntChars
      rw [List.dropWhile_cons, hck, digitChar_not_ws hk]
      simp only [Bool.false_eq_true, if_false]
      rw [if_neg (digitChar_not_sign hk).1, if_neg (digitChar_not_sign hk).2]
      have htake : (digitChar k :: cs).takeWhile Char.isDigit
          = digitChar k :: cs := by
        apply takeWhile_all
        intro d hd
        rcases List.mem_cons.mp hd with hd' | hd'
        · rw [hd']; exact digitChar_isDigit hk
        · obtain ⟨k', hk', hdk⟩ := hall d (List.mem_cons_of_mem c hd')
          rw [hdk]; exact digitChar_isDigit hk'
      simp only [htake]
      rw [if_neg (by simp)]
      simp

/-- `parseIntChars` on a minus sign followed by digits is the negation. -/
theorem parseIntChars_neg_digits (L : List Char)
    (hall : ∀ c ∈ L, ∃ k, k < 10 ∧ c = digitChar k) (hne : L ≠ []) :
    parseIntChars ('-' :: L) = -(parseNatDigits L : Int) := by
  unfold parseIntChars
  rw [List.dropWhile_cons]
  rw [show ((decide ('-' = ' ') || decide ('-' = '\t') ||
      decide ('-' = '\n') || decide ('-' = '\r'))) = false from rfl]
  simp only [Bool.false_eq_true, if_false]
  rw [if_pos trivial]
  have htake : L.takeWhile Char.isDigit = L := by
    apply takeWhile_all
    intro d hd
    obtain ⟨k', hk', hdk⟩ := hall d hd
    rw [hdk]; exact digitChar_isDigit hk'
  simp only [htake]
  rw [if_neg hne]
  simp

/-- Parsing a printed natural recovers it. -/
theorem parseIntOr0_natToString (n : Nat) :
    parseIntOr0 (natToString n) = n := by
  obtain ⟨h1, h2, h3⟩ := natDigitsRevAux_spec (n + 1) n (by omega)
  have hrevne : (natDigitsRevAux (n + 1) n).reverse ≠ [] := by
    intro h
    apply h3
    have := congrArg List.reverse h
    simpa using this
  have hrevall : ∀ c ∈ (natDigitsRevAux (n + 1) n).reverse,
      ∃ k, k < 10 ∧ c = digitChar k := by
    intro c hc
    exact h2 c (by simpa using hc)
  show parseIntChars (natDigitsRev n).reverse = (n : Int)
  unfold natDigitsRev
  rw [parseIntChars_digits _ hrevall hrevne, h1]

/-- Parsing a printed integer recovers it. -/
theorem parseIntOr0_intToString (i : Int) :
    parseIntOr0 (intToString i) = i := by
  by_cases hneg : i < 0
  · obtain ⟨h1, h2, h3⟩ := natDigitsRevAux_spec (i.natAbs + 1) i.natAbs (by omega)
    have hrevne : (natDigitsRevAux (i.natAbs + 1) i.natAbs).reverse ≠ [] := by
      intro h
      apply h3
      have := congrArg List.reverse h
      simpa using this
    have hrevall : ∀ c ∈ (natDigitsRevAux (i.natAbs + 1) i.natAbs).reverse,
        ∃ k, k < 10 ∧ c = digitChar k := by
      intro c hc
      exact h2 c (by simpa using hc)
    unfold intToString
    rw [if_pos hneg]
    show parseIntChars ('-' :: (natDigitsRev i.natAbs).reverse) = i
    unfold natDigitsRev
    rw [parseIntChars_neg_digits _ hrevall hrevne, h1]
    omega
  · unfold intToString
    rw [if_neg hneg]
    rw [parseIntOr0_natToString]
    omega

end TaskStore

namespace TaskStore

open AcpModel

/-- Folding `max` commutes with casting naturals into the integers. -/
theorem foldl_max_cast (xs : List Nat) : ∀ (x : Nat),
    (xs.map (Nat.cast : Nat → Int)).foldl max (x : Int)
      = ((xs.foldl Nat.max x : Nat) : Int) := by
  induction xs with
  | nil => intro x; rfl
  | cons y ys ih =>
      intro x
      simp only [List.map_cons, List.foldl_cons]
      rw [← Nat.cast_max]
      exact ih (max x y)

/-- C3: work-item ids are strictly increasing and survive a restart: on a
fresh store over a directory of numeric ids, `init` recovers the counter as
the maximum id plus one (1 on an empty directory); within one initialized
store two consecutive `create`s return strictly increasing numeric ids; and
the concrete restart scenario creates `"1"`, `"2"`, `"3"`, reopens, and the
next create yields `"4"`. -/
theorem create_ids_monotone_and_restart :
    (∀ (files : List (String × Task)) (ns : List Nat),
        files.map (fun e => e.2.id) = ns.map natToString → files ≠ [] →
        (init (freshStore files)).nextId = (maxNatList ns : Int) + 1) ∧
    ((init (freshStore [])).nextId = 1) ∧
    (∀ (st : StoreState) (i1 i2 : TaskCreateInput), st.initialized = true →
        parseIntOr0 ((create st i1).1.id)
          < parseIntOr0 ((create (create st i1).2 i2).1.id)) ∧
    (Examples.sc1.1.id = "1" ∧ Examples.sc2.1.id = "2" ∧
      Examples.sc3.1.id = "3" ∧ Examples.sc4.1.id = "4") := by
  refine ⟨?_, by decide, ?_, by decide⟩
  · intro files ns hmap hne
    have hmap2 : files.map (fun e => parseIntOr0 e.2.id)
        = ns.map (Nat.cast : Nat → Int) := by
      have h2 := congrArg (List.map parseIntOr0) hmap
      rw [List.map_map, List.map_map] at h2
      rw [show (parseIntOr0 ∘ fun e : String × Task => e.2.id)
          = (fun e : String × Task => parseIntOr0 e.2.id) from rfl] at h2
      rw [h2]
      apply List.map_congr_left
      intro n _
      show parseIntOr0 (natToString n) = (n : Int)
      exact parseIntOr0_natToString n
    have hfe : files.isEmpty = false := by
      cases files with
      | nil => exact absurd rfl hne
      | cons f fs => rfl
    show (init { files := files, nextId := 1, initialized := false }).nextId
      = (maxNatList ns : Int) + 1
    unfold init
    simp only [hfe, Bool.false_eq_true, if_false]
    unfold maxParsedId
    cases ns with
    | nil =>
        exfalso
        simp only [List.map_nil] at hmap2
        rw [List.map_eq_nil] at hmap2
        exact hne hmap2
    | cons m ms =>
        simp only [List.map_cons] at hmap2
        simp only [hmap2]
        rw [foldl_max_cast]
        rfl
  · intro st i1 i2 hinit
    have hgen : ∀ (s : StoreState) (i : TaskCreateInput),
        s.initialized = true →
        (create s i).1.id = intToString s.nextId ∧
        (create s i).2.nextId = s.nextId + 1 ∧
        (create s i).2.initialized = true := by
      intro s i hs
      have hi : init s = s := by unfold init; rw [if_pos hs]
      refine ⟨?_, ?_, ?_⟩ <;> simp [create, hi, hs]
    have hg1 := hgen st i1 hinit
    have hg2 := hgen (create st i1).2 i2 hg1.2.2
    rw [hg1.1, hg2.1, hg1.2.1, parseIntOr0_intToString, parseIntOr0_intToString]
    omega

/-- Witness for `create_ids_monotone_and_restart`: counter recovery on a
two-task directory and strict growth of consecutive ids. -/
theorem create_ids_monotone_and_restart_witness :
    (init (freshStore Examples.pairStore.files)).nextId = 3 ∧
    parseIntOr0 ((create Examples.singleStore Examples.runTestsInput).1.id)
      < parseIntOr0 ((create (create Examples.singleStore
          Examples.runTestsInput).2 Examples.runTestsInput).1.id) := by
  constructor
  · have h := create_ids_monotone_and_restart.1
      Examples.pairStore.files [1, 2] (by decide) (by decide)
    rw [h]
    decide
  · exact create_ids_monotone_and_restart.2.2.1 Examples.singleStore
      Examples.runTestsInput Examples.runTestsInput rfl

end TaskStore

namespace TaskStore

open AcpModel

/-- A patch with no scalar fields leaves the task unchanged. -/
theorem applyScalar_addBlocksPatch (t : Task) (l : List String) :
    applyScalar t (addBlocksPatch l) = t := rfl

/-- A status-only patch only rewrites the status. -/
theorem applyScalar_statusPatch (t : Task) (s : TaskStatus) :
    applyScalar t (statusPatch s) = { t with status := s } := rfl

/-- Once a file's `blockedBy` omits the updating task, the consistency
pass keeps it that way. -/
theorem completedPassGo_preserves (A X : String) :
    ∀ (l : List String) (fs : List (String × Task)),
      (∀ tb, mapGet fs X = some tb → A ∉ tb.blockedBy) →
      (∀ tb, mapGet (completedPassGo A l fs) X = some tb → A ∉ tb.blockedBy) := by
  intro l
  induction l with
  | nil => intro fs h; exact h
  | cons b rest ih =>
      intro fs h
      simp only [completedPassGo]
      cases hb : mapGet fs b with
      | none => exact ih fs h
      | some bt =>
          apply ih
          intro tb htb
          by_cases hbX : X = b
          · subst hbX
            rw [mapGet_mapSet_self] at htb
            cases htb
            intro hmem
            have := List.mem_filter.mp hmem
            simp at this
          · rw [mapGet_mapSet_ne _ hbX] at htb
            exact h tb htb

/-- After the consistency pass, every task in the processed list omits the
updating task from its `blockedBy`. -/
theorem completedPassGo_mem (A : String) :
    ∀ (l : List String) (fs : List (String × Task)) (B : String), B ∈ l →
      (∀ tb, mapGet (completedPassGo A l fs) B = some tb → A ∉ tb.blockedBy) := by
  intro l
  induction l with
  | nil => intro fs B hB; simp at hB
  | cons b rest ih =>
      intro fs B hB
      rcases List.mem_cons.mp hB with hB' | hB'
      · subst hB'
        simp only [completedPassGo]
        cases hb : mapGet fs B with
        | none =>
            apply completedPassGo_preserves
            intro tb htb
            rw [hb] at htb
            cases htb
        | some bt =>
            apply completedPassGo_preserves
            intro tb htb
            rw [mapGet_mapSet_self] at htb
            cases htb
            intro hmem
            have := List.mem_filter.mp hmem
            simp at this
      · simp only [completedPassGo]
        cases hb : mapGet fs b with
        | none => exact ih fs B hB'
        | some bt => exact ih _ B hB'

/-- C4 (amended, restricted to distinct tasks A and B): after
`update(A, {addBlocks:[B]})` the stored A has B in `blocks` and the stored
B has A in `blockedBy`; after `update(A, {status:"completed"})`, every task
B other than A listed in the updated task's `blocks` no longer records A in
its stored `blockedBy`.  (The restriction to `A ≠ B` is forced: for `A = B`
the final save of the in-memory task overwrites the mirrored edge write, as
the counterexample shows.) -/
theorem update_edge_symmetry (st : StoreState) (A : String) (tA : Task)
    (hA : mapGet (init st).files A = some tA) :
    (∀ B tB, B ≠ A → mapGet (init st).files B = some tB →
      ∀ t1 st1, update st A (addBlocksPatch [B]) = Except.ok (t1, st1) →
        B ∈ t1.blocks ∧ mapGet st1.files A = some t1 ∧
        (∀ tb, mapGet st1.files B = some tb → A ∈ tb.blockedBy)) ∧
    (∀ t1 st1, update st A (statusPatch .completed) = Except.ok (t1, st1) →
      mapGet st1.files A = some t1 ∧
      (∀ B, B ∈ t1.blocks → B ≠ A →
        ∀ tb, mapGet st1.files B = some tb → A ∉ tb.blockedBy)) := by
  have hcond : ((none : Option TaskStatus) = some TaskStatus.completed)
      = False := by simp
  constructor
  · intro B tB hBA hB t1 st1 hok
    simp only [update, hA, addBlocksPatch, blankPatch, applyScalar,
      addBlocksGo, addBlockedByGo, mergeMetadata, Option.getD, hB, hcond,
      if_false] at hok
    by_cases hmem : B ∈ tA.blocks <;> by_cases hbb : A ∈ tB.blockedBy <;>
      simp only [hmem, hbb, if_true, if_false, ite_true, ite_false,
        eq_self_iff_true, not_true, not_false_iff] at hok <;>
      rw [Except.ok.injEq, Prod.mk.injEq] at hok <;>
      obtain ⟨ht, hst⟩ := hok <;> subst ht <;> subst hst
    · refine ⟨hmem, by rw [mapGet_mapSet_self], ?_⟩
      intro tb htb
      rw [mapGet_mapSet_ne _ hBA, hB] at htb
      cases htb
      exact hbb
    · refine ⟨hmem, by rw [mapGet_mapSet_self], ?_⟩
      intro tb htb
      rw [mapGet_mapSet_ne _ hBA, mapGet_mapSet_self] at htb
      cases htb
      simp
    · refine ⟨by simp, by rw [mapGet_mapSet_self], ?_⟩
      intro tb htb
      rw [mapGet_mapSet_ne _ hBA, hB] at htb
      cases htb
      exact hbb
    · refine ⟨by simp, by rw [mapGet_mapSet_self], ?_⟩
      intro tb htb
      rw [mapGet_mapSet_ne _ hBA, mapGet_mapSet_self] at htb
      cases htb
      simp
  · intro t1 st1 hok
    simp only [update, hA, statusPatch, blankPatch, applyScalar,
      addBlocksGo, addBlockedByGo, mergeMetadata, Option.getD,
      eq_self_iff_true, if_true, ite_true] at hok
    rw [Except.ok.injEq, Prod.mk.injEq] at hok
    obtain ⟨ht, hst⟩ := hok
    subst ht
    subst hst
    refine ⟨by rw [mapGet_mapSet_self], ?_⟩
    intro B hBmem hBA tb htb
    rw [mapGet_mapSet_ne _ hBA] at htb
    exact completedPassGo_mem A _ _ B hBmem tb htb

/-- Witness for `update_edge_symmetry` on the two-task store: adding the
edge 1 blocks 2 records both directions. -/
theorem update_edge_symmetry_witness :
    "2" ∈ Examples.pairTaskA.blocks ∧
    mapGet Examples.pairStoreAfter.files "1" = some Examples.pairTaskA ∧
    "1" ∈ Examples.pairTaskB.blockedBy := by
  have h := (update_edge_symmetry Examples.pairStore "1"
      (Examples.plainTask "1") (by decide)).1 "2" (Examples.plainTask "2")
      (by decide) (by decide) Examples.pairTaskA Examples.pairStoreAfter rfl
  exact ⟨h.1, h.2.1, h.2.2 Examples.pairTaskB (by decide)⟩

/-- C4 (counterexample to the claim as stated): with A = B = `"1"` both
present, `update("1", {addBlocks:["1"]})` stores `"1"` in A's `blocks` but
the final save of the in-memory task overwrites the mirrored write, so the
stored `blockedBy` does not contain `"1"`. -/
theorem update_addBlocks_self_asymmetric :
    update Examples.singleStore "1" (addBlocksPatch ["1"])
      = Except.ok (Examples.selfEdgeTask, Examples.selfEdgeStore) ∧
    "1" ∈ Examples.selfEdgeTask.blocks ∧
    mapGet Examples.selfEdgeStore.files "1" = some Examples.selfEdgeTask ∧
    "1" ∉ Examples.selfEdgeTask.blockedBy := by
  refine ⟨rfl, by decide, by decide, by decide⟩

end TaskStore

namespace TaskStore

open AcpModel

/-- The first `delete` loop keeps already-clean `blockedBy` lists clean. -/
theorem deleteBlocksGo_preserves (A X : String) :
    ∀ (l : List String) (fs : List (String × Task)),
      (∀ tb, mapGet fs X = some tb → A ∉ tb.blockedBy) →
      (∀ tb, mapGet (deleteBlocksGo A l fs) X = some tb → A ∉ tb.blockedBy) := by
  intro l
  induction l with
  | nil => intro fs h; exact h
  | cons b rest ih =>
      intro fs h
      simp only [deleteBlocksGo]
      cases hb : mapGet fs b with
      | none => exact ih fs h
      | some bt =>
          apply ih
          intro tb htb
          by_cases hbX : X = b
          · subst hbX
            rw [mapGet_mapSet_self] at htb
            cases htb
            intro hmem
            have := List.mem_filter.mp hmem
            simp at this
          · rw [mapGet_mapSet_ne _ hbX] at htb
            exact h tb htb

/-- After the first `delete` loop, every processed task's stored
`blockedBy` omits the deleted id. -/
theorem deleteBlocksGo_mem (A : String) :
    ∀ (l : List String) (fs : List (String × Task)) (B : String), B ∈ l →
      (∀ tb, mapGet (deleteBlocksGo A l fs) B = some tb → A ∉ tb.blockedBy) := by
  intro l
  induction l with
  | nil => intro fs B hB; simp at hB
  | cons b rest ih =>
      intro fs B hB
      rcases List.mem_cons.mp hB with hB' | hB'
      · subst hB'
        simp only [deleteBlocksGo]
        cases hb : mapGet fs B with
        | none =>
            apply deleteBlocksGo_preserves
            intro tb htb
            rw [hb] at htb
            cases htb
        | some bt =>
            apply deleteBlocksGo_preserves
            intro tb htb
            rw [mapGet_mapSet_self] at htb
            cases htb
            intro hmem
            have := List.mem_filter.mp hmem
            simp at this
      · simp only [deleteBlocksGo]
        cases hb : mapGet fs b with
        | none => exact ih fs B hB'
        | some bt => exact ih _ B hB'

/-- The second `delete` loop rewrites only `blocks` fields, so clean
`blockedBy` lists stay clean. -/
theorem deleteBlockedByGo_keeps_blockedBy (A X : String) :
    ∀ (l : List String) (fs : List (String × Task)),
      (∀ tb, mapGet fs X = some tb → A ∉ tb.blockedBy) →
      (∀ tb, mapGet (deleteBlockedByGo A l fs) X = some tb →
        A ∉ tb.blockedBy) := by
  intro l
  induction l with
  | nil => intro fs h; exact h
  | cons b rest ih =>
      intro fs h
      simp only [deleteBlockedByGo]
      cases hb : mapGet fs b with
      | none => exact ih fs h
      | some bt =>
          apply ih
          intro tb htb
          by_cases hbX : X = b
          · subst hbX
            rw [mapGet_mapSet_self] at htb
            cases htb
            exact h bt hb
          · rw [mapGet_mapSet_ne _ hbX] at htb
            exact h tb htb

/-- The second `delete` loop keeps already-clean `blocks` lists clean. -/
theorem deleteBlockedByGo_preserves (A X : String) :
    ∀ (l : List String) (fs : List (String × Task)),
      (∀ tb, mapGet fs X = some tb → A ∉ tb.blocks) →
      (∀ tb, mapGet (deleteBlockedByGo A l fs) X = some tb → A ∉ tb.blocks) := by
  intro l
  induction l with
  | nil => intro fs h; exact h
  | cons b rest ih =>
      intro fs h
      simp only [deleteBlockedByGo]
      cases hb : mapGet fs b with
      | none => exact ih fs h
      | some bt =>
          apply ih
          intro tb htb
          by_cases hbX : X = b
          · subst hbX
            rw [mapGet_mapSet_self] at htb
            cases htb
            intro hmem
            have := List.mem_filter.mp hmem
            simp at this
          · rw [mapGet_mapSet_ne _ hbX] at htb
            exact h tb htb

/-- After the second `delete` loop, every processed task's stored `blocks`
omits the deleted id. -/
theorem deleteBlockedByGo_mem (A : String) :
    ∀ (l : List String) (fs : List (String × Task)) (B : String), B ∈ l →
      (∀ tb, mapGet (deleteBlockedByGo A l fs) B = some tb → A ∉ tb.blocks) := by
  intro l
  induction l with
  | nil => intro fs B hB; simp at hB
  | cons b rest ih =>
      intro fs B hB
      rcases List.mem_cons.mp hB with hB' | hB'
      · subst hB'
        simp only [deleteBlockedByGo]
        cases hb : mapGet fs B with
        | none =>
            apply deleteBlockedByGo_preserves
            intro tb htb
            rw [hb] at htb
            cases htb
        | some bt =>
            apply deleteBlockedByGo_preserves
            intro tb htb
            rw [mapGet_mapSet_self] at htb
            cases htb
            intro hmem
            have := List.mem_filter.mp hmem
            simp at this
      · simp only [deleteBlockedByGo]
        cases hb : mapGet fs b with
        | none => exact ih fs B hB'
        | some bt => exact ih _ B hB'

/-- The `delete` loops never remove keys. -/
theorem deleteBlocksGo_containsKey (A X : String) :
    ∀ (l : List String) (fs : List (String × Task)),
      containsKey fs X = true →
      containsKey (deleteBlocksGo A l fs) X = true := by
  intro l
  induction l with
  | nil => intro fs h; exact h
  | cons b rest ih =>
      intro fs h
      simp only [deleteBlocksGo]
      cases hb : mapGet fs b with
      | none => exact ih fs h
      | some bt =>
          apply ih
          rw [containsKey_mapSet]
          simp [h]

/-- The second `delete` loop never removes keys either. -/
theorem deleteBlockedByGo_containsKey (A X : String) :
    ∀ (l : List String) (fs : List (String × Task)),
      containsKey fs X = true →
      containsKey (deleteBlockedByGo A l fs) X = true := by
  intro l
  induction l with
  | nil => intro fs h; exact h
  | cons b rest ih =>
      intro fs h
      simp only [deleteBlockedByGo]
      cases hb : mapGet fs b with
      | none => exact ih fs h
      | some bt =>
          apply ih
          rw [containsKey_mapSet]
          simp [h]

/-- `init` always leaves the store initialized. -/
theorem init_initialized (st : StoreState) : (init st).initialized = true := by
  unfold init
  by_cases h : st.initialized
  · simpa [h] using h
  · simp [h]

end TaskStore

namespace TaskStore

open AcpModel

/-- C7: `delete(id)` returns `false` and leaves the store unchanged when
the task does not exist; otherwise it removes `id` from the `blockedBy`
list of every task it blocks and from the `blocks` list of every task
blocking it, removes the task's file, returns `true`, and a subsequent
`get` on the id yields the null-equivalent `none`. -/
theorem delete_spec (st : StoreState) (taskId : String) :
    (mapGet (init st).files taskId = none →
      deleteTask st taskId = (false, init st)) ∧
    (∀ t, mapGet (init st).files taskId = some t →
      (deleteTask st taskId).1 = true ∧
      get (deleteTask st taskId).2 taskId = none ∧
      (∀ B, B ∈ t.blocks →
        ∀ tb, mapGet (deleteTask st taskId).2.files B = some tb →
          taskId ∉ tb.blockedBy) ∧
      (∀ B, B ∈ t.blockedBy →
        ∀ tb, mapGet (deleteTask st taskId).2.files B = some tb →
          taskId ∉ tb.blocks)) := by
  constructor
  · intro h
    simp only [deleteTask, h]
  · intro t ht
    set fs2 := deleteBlockedByGo taskId t.blockedBy
      (deleteBlocksGo taskId t.blocks (init st).files) with hfs2
    have hck : containsKey fs2 taskId = true := by
      rw [hfs2]
      exact deleteBlockedByGo_containsKey _ _ _ _
        (deleteBlocksGo_containsKey _ _ _ _ (containsKey_of_mapGet ht))
    have hres : deleteTask st taskId =
        (true, { init st with files := mapDelete fs2 taskId }) := by
      simp only [deleteTask, ht, ← hfs2, hck, if_true]
    rw [hres]
    refine ⟨rfl, ?_, ?_, ?_⟩
    · have hinit : init { init st with files := mapDelete fs2 taskId }
          = { init st with files := mapDelete fs2 taskId } := by
        unfold init
        rw [if_pos]
        show (init st).initialized = true
        exact init_initialized st
      unfold get
      rw [hinit]
      exact mapGet_mapDelete_self _ taskId
    · intro B hB tb htb
      by_cases hBid : B = taskId
      · subst hBid
        rw [mapGet_mapDelete_self] at htb
        cases htb
      · simp only at htb
        rw [mapGet_mapDelete_ne _ hBid] at htb
        rw [hfs2] at htb
        exact deleteBlockedByGo_keeps_blockedBy taskId B t.blockedBy _
          (deleteBlocksGo_mem taskId t.blocks _ B hB) tb htb
    · intro B hB tb htb
      by_cases hBid : B = taskId
      · subst hBid
        rw [mapGet_mapDelete_self] at htb
        cases htb
      · simp only at htb
        rw [mapGet_mapDelete_ne _ hBid] at htb
        rw [hfs2] at htb
        exact deleteBlockedByGo_mem taskId t.blockedBy _ B hB tb htb

/-- Witness for `delete_spec`: deleting the lone task `"1"` succeeds and a
subsequent `get` returns `none`; deleting a missing id returns `false`. -/
theorem delete_spec_witness :
    deleteTask Examples.singleStore "404"
      = (false, init Examples.singleStore) ∧
    (deleteTask Examples.singleStore "1").1 = true ∧
    get (deleteTask Examples.singleStore "1").2 "1" = none := by
  have hmissing := (delete_spec Examples.singleStore "404").1 (by decide)
  have hdel := (delete_spec Examples.singleStore "1").2
    (Examples.plainTask "1") (by decide)
  exact ⟨hmissing, hdel.1, hdel.2.1⟩

end TaskStore

namespace TaskStore

open AcpModel

/-- An absent key looks up to `none`. -/
theorem mapGet_eq_none_of_not_mem {α : Type} {l : List (String × α)}
    {k : String} (h : k ∉ keysOf l) : mapGet l k = none := by
  cases hg : mapGet l k with
  | none => rfl
  | some v =>
      exact absurd (containsKey_iff.mp (containsKey_of_mapGet hg)) h

/-- A key present in the key list looks up to something. -/
theorem mapGet_ne_none_of_mem_keys {α : Type} {l : List (String × α)}
    {k : String} (h : k ∈ keysOf l) : mapGet l k ≠ none := by
  induction l with
  | nil => simp [keysOf] at h
  | cons e rest ih =>
      by_cases he : e.1 = k
      · simp [mapGet, he]
      · simp only [keysOf, List.map_cons, List.mem_cons] at h
        rcases h with h | h
        · exact absurd h.symm he
        · simp only [mapGet, if_neg he]
          exact ih h

/-- A metadata patch with no scalar fields leaves the task unchanged. -/
theorem applyScalar_metadataPatch (t : Task) (p : MetaObj) :
    applyScalar t (metadataPatch p) = t := rfl

/-- Lookup in the object spread `{...m, ...p}`: the patch wins on its own
keys and falls back to the base elsewhere. -/
theorem objMerge_get :
    ∀ (p m : MetaObj), (p.map Prod.fst).Nodup → ∀ k,
      mapGet (objMerge m p) k =
        (match mapGet p k with
         | some v => some v
         | none => mapGet m k) := by
  intro p
  induction p with
  | nil => intro m _ k; rfl
  | cons e rest ih =>
      intro m hp k
      simp only [List.map_cons, List.nodup_cons] at hp
      show mapGet (objMerge (mapSet m e.1 e.2) rest) k = _
      by_cases hk : e.1 = k
      · subst hk
        have hrest : mapGet rest e.1 = none :=
          mapGet_eq_none_of_not_mem hp.1
        have hhead : mapGet (e :: rest) e.1 = some e.2 := by
          simp [mapGet]
        rw [ih (mapSet m e.1 e.2) hp.2 e.1, hrest, hhead]
        simp [mapGet_mapSet_self]
      · rw [ih (mapSet m e.1 e.2) hp.2 k]
        cases hr : mapGet rest k with
        | some v => simp [mapGet, hk, hr]
        | none =>
            simp only [mapGet, hk, if_false, hr]
            exact mapGet_mapSet_ne m (fun h => hk h.symm) e.2

/-- A key deleted by the null pass stays deleted. -/
theorem deleteNulls_none_mono (k : String) :
    ∀ (p acc : MetaObj), mapGet acc k = none →
      mapGet (p.foldl (fun acc e =>
        if e.2 = MetaVal.null then mapDelete acc e.1 else acc) acc) k = none := by
  intro p
  induction p with
  | nil => intro acc h; exact h
  | cons e rest ih =>
      intro acc h
      simp only [List.foldl_cons]
      by_cases hnull : e.2 = MetaVal.null
      · rw [if_pos hnull]
        apply ih
        by_cases hk : k = e.1
        · subst hk
          exact mapGet_mapDelete_self acc _
        · rw [mapGet_mapDelete_ne acc hk]; exact h
      · rw [if_neg hnull]
        exact ih acc h

/-- The null pass removes every key the patch maps to null. -/
theorem deleteNulls_of_mem (k : String) :
    ∀ (p acc : MetaObj), (k, MetaVal.null) ∈ p →
      mapGet (p.foldl (fun acc e =>
        if e.2 = MetaVal.null then mapDelete acc e.1 else acc) acc) k = none := by
  intro p
  induction p with
  | nil => intro acc h; simp at h
  | cons e rest ih =>
      intro acc h
      rcases List.mem_cons.mp h with h' | h'
      · subst h'
        have hstep : (if (k, MetaVal.null).2 = MetaVal.null
            then mapDelete acc (k, MetaVal.null).1 else acc)
            = mapDelete acc k := by simp
        rw [List.foldl_cons, hstep]
        apply deleteNulls_none_mono
        exact mapGet_mapDelete_self acc k
      · simp only [List.foldl_cons]
        by_cases hnull : e.2 = MetaVal.null
        · rw [if_pos hnull]; exact ih _ h'
        · rw [if_neg hnull]; exact ih _ h'

/-- The null pass leaves keys alone that the patch never nulls. -/
theorem deleteNulls_of_not_mem (k : String) :
    ∀ (p acc : MetaObj), (∀ e ∈ p, e.1 = k → e.2 ≠ MetaVal.null) →
      mapGet (p.foldl (fun acc e =>
        if e.2 = MetaVal.null then mapDelete acc e.1 else acc) acc) k
        = mapGet acc k := by
  intro p
  induction p with
  | nil => intro acc _; rfl
  | cons e rest ih =>
      intro acc h
      simp only [List.foldl_cons]
      by_cases hnull : e.2 = MetaVal.null
      · rw [if_pos hnull]
        rw [ih _ (fun u hu => h u (List.mem_cons_of_mem e hu))]
        have hek : ¬ k = e.1 := by
          intro hk
          exact h e (List.mem_cons_self e rest) hk.symm hnull
        exact mapGet_mapDelete_ne acc hek
      · rw [if_neg hnull]
        exact ih _ (fun u hu => h u (List.mem_cons_of_mem e hu))

/-- C8: `update` with a metadata patch shallow-merges the patch over the
existing metadata, except that every key the patch maps to `null` is
deleted from the result rather than stored. -/
theorem update_metadata_merge (st : StoreState) (A : String) (t0 : Task)
    (hA : mapGet (init st).files A = some t0) (p : MetaObj)
    (hp : (p.map Prod.fst).Nodup) :
    ∀ t1 st1, update st A (metadataPatch p) = Except.ok (t1, st1) →
      mapGet st1.files A = some t1 ∧
      ∀ k, mapGet (t1.metadata.getD []) k =
        (match mapGet p k with
         | some MetaVal.null => none
         | some v => some v
         | none => mapGet (t0.metadata.getD []) k) := by
  have hcond : ((none : Option TaskStatus) = some TaskStatus.completed)
      = False := by simp
  intro t1 st1 hok
  simp only [update, hA, metadataPatch, blankPatch, applyScalar,
    addBlocksGo, addBlockedByGo, Option.getD, hcond, if_false] at hok
  rw [Except.ok.injEq, Prod.mk.injEq] at hok
  obtain ⟨ht, hst⟩ := hok
  subst ht
  subst hst
  refine ⟨by rw [mapGet_mapSet_self], ?_⟩
  intro k
  show mapGet ((mergeMetadata t0.metadata (some p)).getD []) k = _
  unfold mergeMetadata
  simp only [Option.getD_some]
  cases hk : mapGet p k with
  | some v =>
      cases v with
      | null =>
          exact deleteNulls_of_mem k p _ (mapGet_some_mem hk)
      | str s =>
          rw [deleteNulls_of_not_mem k p _ ?hne, objMerge_get p _ hp k, hk]
          intro e he hek hnull
          have : e = (k, MetaVal.str s) :=
            entry_eq_of_key_eq hp he (mapGet_some_mem hk) hek
          rw [this] at hnull
          cases hnull
      | num n =>
          rw [deleteNulls_of_not_mem k p _ ?hne2, objMerge_get p _ hp k, hk]
          intro e he hek hnull
          have : e = (k, MetaVal.num n) :=
            entry_eq_of_key_eq hp he (mapGet_some_mem hk) hek
          rw [this] at hnull
          cases hnull
      | bool b =>
          rw [deleteNulls_of_not_mem k p _ ?hne3, objMerge_get p _ hp k, hk]
          intro e he hek hnull
          have : e = (k, MetaVal.bool b) :=
            entry_eq_of_key_eq hp he (mapGet_some_mem hk) hek
          rw [this] at hnull
          cases hnull
  | none =>
      have hnok : k ∉ keysOf p := fun hmem =>
        mapGet_ne_none_of_mem_keys hmem hk
      rw [deleteNulls_of_not_mem k p _
          (fun e he hek _ => hnok (hek ▸ List.mem_map_of_mem Prod.fst he)),
        objMerge_get p _ hp k, hk]

/-- Witness for `update_metadata_merge`: the claim's scenario — create with
`{key1:"v1"}`, merge `{key2:"v2"}`, then delete via `{key1:null}`. -/
theorem update_metadata_merge_witness :
    mapGet (Examples.metaTask2.metadata.getD []) "key1"
      = some (MetaVal.str "v1") ∧
    mapGet (Examples.metaTask2.metadata.getD []) "key2"
      = some (MetaVal.str "v2") ∧
    mapGet (Examples.metaTask3.metadata.getD []) "key2"
      = some (MetaVal.str "v2") ∧
    mapGet (Examples.metaTask3.metadata.getD []) "key1" = none := by
  have h1 := update_metadata_merge Examples.metaStore "1" Examples.metaTask
    (by decide) [("key2", MetaVal.str "v2")] (by decide)
    Examples.metaTask2 Examples.metaStore2 rfl
  have h2 := update_metadata_merge Examples.metaStore2 "1" Examples.metaTask2
    (by decide) [("key1", MetaVal.null)] (by decide)
    Examples.metaTask3 Examples.metaStore3 rfl
  refine ⟨?_, ?_, ?_, ?_⟩
  · rw [h1.2 "key1"]; decide
  · rw [h1.2 "key2"]; decide
  · rw [h2.2 "key2"]; decide
  · rw [h2.2 "key1"]; decide

end TaskStore

namespace TaskStore

open AcpModel

/-- Appending one fresh element keeps a list duplicate-free. -/
theorem nodup_append_one {l : List String} (h : l.Nodup) {x : String}
    (hx : x ∉ l) : (l ++ [x]).Nodup := by
  simp [List.nodup_append, h, hx]

/-- `mapSet` with a clean value keeps the edge-list invariant. -/
theorem EdgeNodup_mapSet {fs : List (String × Task)} (he : EdgeNodup fs)
    {v : Task} (hb : v.blocks.Nodup) (hbb : v.blockedBy.Nodup)
    (k : String) : EdgeNodup (mapSet fs k v) := by
  intro e hmem
  rcases mem_mapSet_cases hmem with h | h
  · rw [h]
    exact ⟨hb, hbb⟩
  · exact he e h

/-- `mapDelete` keeps the edge-list invariant. -/
theorem EdgeNodup_mapDelete {fs : List (String × Task)} (he : EdgeNodup fs)
    (k : String) : EdgeNodup (mapDelete fs k) :=
  fun e hmem => he e (mem_mapDelete_sub hmem)

/-- `applyScalar` never touches the edge lists. -/
theorem applyScalar_edges (t : Task) (i : TaskUpdateInput) :
    (applyScalar t i).blocks = t.blocks ∧
    (applyScalar t i).blockedBy = t.blockedBy := by
  unfold applyScalar
  cases i.status <;> cases i.subject <;> cases i.description <;>
    cases i.activeForm <;> cases i.owner <;> exact ⟨rfl, rfl⟩

/-- The `addBlocks` loop keeps the task's `blocks` duplicate-free, never
touches its `blockedBy`, and keeps the edge-list invariant of the files. -/
theorem addBlocksGo_nodup (A : String) :
    ∀ (l : List String) (t : Task) (fs : List (String × Task)),
      t.blocks.Nodup → EdgeNodup fs →
      (addBlocksGo A l t fs).1.blocks.Nodup ∧
      (addBlocksGo A l t fs).1.blockedBy = t.blockedBy ∧
      EdgeNodup (addBlocksGo A l t fs).2 := by
  intro l
  induction l with
  | nil => intro t fs hb he; exact ⟨hb, rfl, he⟩
  | cons b rest ih =>
      intro t fs hb he
      simp only [addBlocksGo]
      have hb' : (if b ∈ t.blocks then t
          else { t with blocks := t.blocks ++ [b] }).blocks.Nodup := by
        by_cases hmem : b ∈ t.blocks
        · simpa [hmem] using hb
        · simp only [hmem, ite_false]
          exact nodup_append_one hb hmem
      have hbbeq : (if b ∈ t.blocks then t
          else { t with blocks := t.blocks ++ [b] }).blockedBy = t.blockedBy := by
        by_cases hmem : b ∈ t.blocks <;> simp [hmem]
      cases hg : mapGet fs b with
      | none =>
          obtain ⟨h1, h2, h3⟩ := ih _ fs hb' he
          exact ⟨h1, h2.trans hbbeq, h3⟩
      | some bt =>
          by_cases hbbmem : A ∈ bt.blockedBy
          · simp only [hbbmem, ite_true]
            obtain ⟨h1, h2, h3⟩ := ih _ fs hb' he
            exact ⟨h1, h2.trans hbbeq, h3⟩
          · simp only [hbbmem, ite_false]
            have hbt := he (b, bt) (mapGet_some_mem hg)
            have he' : EdgeNodup (mapSet fs b
                { bt with blockedBy := bt.blockedBy ++ [A] }) :=
              @EdgeNodup_mapSet fs he { bt with blockedBy := bt.blockedBy ++ [A] }
                hbt.1 (nodup_append_one hbt.2 hbbmem) b
            obtain ⟨h1, h2, h3⟩ := ih _ _ hb' he'
            exact ⟨h1, h2.trans hbbeq, h3⟩

/-- The `addBlockedBy` loop, symmetrically. -/
theorem addBlockedByGo_nodup (A : String) :
    ∀ (l : List String) (t : Task) (fs : List (String × Task)),
      t.blockedBy.Nodup → EdgeNodup fs →
      (addBlockedByGo A l t fs).1.blockedBy.Nodup ∧
      (addBlockedByGo A l t fs).1.blocks = t.blocks ∧
      EdgeNodup (addBlockedByGo A l t fs).2 := by
  intro l
  induction l with
  | nil => intro t fs hb he; exact ⟨hb, rfl, he⟩
  | cons b rest ih =>
      intro t fs hb he
      simp only [addBlockedByGo]
      have hb' : (if b ∈ t.blockedBy then t
          else { t with blockedBy := t.blockedBy ++ [b] }).blockedBy.Nodup := by
        by_cases hmem : b ∈ t.blockedBy
        · simpa [hmem] using hb
        · simp only [hmem, ite_false]
          exact nodup_append_one hb hmem
      have hbbeq : (if b ∈ t.blockedBy then t
          else { t with blockedBy := t.blockedBy ++ [b] }).blocks = t.blocks := by
        by_cases hmem : b ∈ t.blockedBy <;> simp [hmem]
      cases hg : mapGet fs b with
      | none =>
          obtain ⟨h1, h2, h3⟩ := ih _ fs hb' he
          exact ⟨h1, h2.trans hbbeq, h3⟩
      | some bt =>
          by_cases hbbmem : A ∈ bt.blocks
          · simp only [hbbmem, ite_true]
            obtain ⟨h1, h2, h3⟩ := ih _ fs hb' he
            exact ⟨h1, h2.trans hbbeq, h3⟩
          · simp only [hbbmem, ite_false]
            have hbt := he (b, bt) (mapGet_some_mem hg)
            have he' : EdgeNodup (mapSet fs b
                { bt with blocks := bt.blocks ++ [A] }) :=
              @EdgeNodup_mapSet fs he { bt with blocks := bt.blocks ++ [A] }
                (nodup_append_one hbt.1 hbbmem) hbt.2 b
            obtain ⟨h1, h2, h3⟩ := ih _ _ hb' he'
            exact ⟨h1, h2.trans hbbeq, h3⟩

/-- The completion pass keeps the edge-list invariant. -/
theorem completedPassGo_nodup (A : String) :
    ∀ (l : List String) (fs : List (String × Task)),
      EdgeNodup fs → EdgeNodup (completedPassGo A l fs) := by
  intro l
  induction l with
  | nil => intro fs he; exact he
  | cons b rest ih =>
      intro fs he
      simp only [completedPassGo]
      cases hg : mapGet fs b with
      | none => exact ih fs he
      | some bt =>
          have hbt := he (b, bt) (mapGet_some_mem hg)
          exact ih _ (@EdgeNodup_mapSet fs he
            { bt with blockedBy := bt.blockedBy.filter (fun x => decide (x ≠ A)) }
            hbt.1 (hbt.2.filter _) b)

/-- The first `delete` loop keeps the edge-list invariant. -/
theorem deleteBlocksGo_nodup (A : String) :
    ∀ (l : List String) (fs : List (String × Task)),
      EdgeNodup fs → EdgeNodup (deleteBlocksGo A l fs) := by
  intro l
  induction l with
  | nil => intro fs he; exact he
  | cons b rest ih =>
      intro fs he
      simp only [deleteBlocksGo]
      cases hg : mapGet fs b with
      | none => exact ih fs he
      | some bt =>
          have hbt := he (b, bt) (mapGet_some_mem hg)
          exact ih _ (@EdgeNodup_mapSet fs he
            { bt with blockedBy := bt.blockedBy.filter (fun x => decide (x ≠ A)) }
            hbt.1 (hbt.2.filter _) b)

/-- The second `delete` loop keeps the edge-list invariant. -/
theorem deleteBlockedByGo_nodup (A : String) :
    ∀ (l : List String) (fs : List (String × Task)),
      EdgeNodup fs → EdgeNodup (deleteBlockedByGo A l fs) := by
  intro l
  induction l with
  | nil => intro fs he; exact he
  | cons b rest ih =>
      intro fs he
      simp only [deleteBlockedByGo]
      cases hg : mapGet fs b with
      | none => exact ih fs he
      | some bt =>
          have hbt := he (b, bt) (mapGet_some_mem hg)
          exact ih _ (@EdgeNodup_mapSet fs he
            { bt with blocks := bt.blocks.filter (fun x => decide (x ≠ A)) }
            (hbt.1.filter _) hbt.2 b)

/-- `init` never rewrites the directory contents. -/
theorem init_files (st : StoreState) : (init st).files = st.files := by
  unfold init
  by_cases h : st.initialized
  · simp [h]
  · by_cases hf : st.files.isEmpty <;> simp [h, hf]

end TaskStore

namespace TaskStore

open AcpModel

/-- The `addBlocks` loop only grows the task's `blocks`. -/
theorem addBlocksGo_blocks_mono (A b : String) :
    ∀ (l : List String) (t : Task) (fs : List (String × Task)),
      b ∈ t.blocks → b ∈ (addBlocksGo A l t fs).1.blocks := by
  intro l
  induction l with
  | nil => intro t fs h; exact h
  | cons c rest ih =>
      intro t fs h
      simp only [addBlocksGo]
      apply ih
      by_cases hmem : c ∈ t.blocks
      · simpa [hmem] using h
      · simp only [hmem, ite_false]
        exact List.mem_append_left _ h

/-- Every id of the patch ends up in the task's `blocks`. -/
theorem addBlocksGo_blocks_mem (A b : String) :
    ∀ (l : List String) (t : Task) (fs : List (String × Task)),
      b ∈ l → b ∈ (addBlocksGo A l t fs).1.blocks := by
  intro l
  induction l with
  | nil => intro t fs h; simp at h
  | cons c rest ih =>
      intro t fs h
      rcases List.mem_cons.mp h with h' | h'
      · subst h'
        simp only [addBlocksGo]
        apply addBlocksGo_blocks_mono
        by_cases hmem : b ∈ t.blocks
        · simpa [hmem] using hmem
        · simp [hmem]
      · simp only [addBlocksGo]
        exact ih _ _ h'

/-- A file already recording the mirrored edge keeps recording it. -/
theorem addBlocksGo_files_preserves (A X : String) :
    ∀ (l : List String) (t : Task) (fs : List (String × Task)),
      (∀ bt, mapGet fs X = some bt → A ∈ bt.blockedBy) →
      (∀ bt, mapGet (addBlocksGo A l t fs).2 X = some bt →
        A ∈ bt.blockedBy) := by
  intro l
  induction l with
  | nil => intro t fs h; exact h
  | cons b rest ih =>
      intro t fs h
      simp only [addBlocksGo]
      cases hb : mapGet fs b with
      | none => exact ih _ fs h
      | some bt =>
          by_cases hbb : A ∈ bt.blockedBy
          · simp only [hbb, ite_true]
            exact ih _ fs h
          · simp only [hbb, ite_false]
            apply ih
            intro tb htb
            by_cases hbX : X = b
            · subst hbX
              rw [mapGet_mapSet_self] at htb
              cases htb
              simp
            · rw [mapGet_mapSet_ne _ hbX] at htb
              exact h tb htb

/-- After the loop, every patched file records the mirrored edge. -/
theorem addBlocksGo_files_mem (A : String) :
    ∀ (l : List String) (t : Task) (fs : List (String × Task)) (b : String),
      b ∈ l →
      (∀ bt, mapGet (addBlocksGo A l t fs).2 b = some bt →
        A ∈ bt.blockedBy) := by
  intro l
  induction l with
  | nil => intro t fs b h; simp at h
  | cons c rest ih =>
      intro t fs b h
      rcases List.mem_cons.mp h with h' | h'
      · subst h'
        simp only [addBlocksGo]
        cases hb : mapGet fs b with
        | none =>
            apply addBlocksGo_files_preserves
            intro tb htb
            rw [hb] at htb
            cases htb
        | some bt =>
            by_cases hbb : A ∈ bt.blockedBy
            · simp only [hbb, ite_true]
              apply addBlocksGo_files_preserves
              intro tb htb
              rw [hb] at htb
              cases htb
              exact hbb
            · simp only [hbb, ite_false]
              apply addBlocksGo_files_preserves
              intro tb htb
              rw [mapGet_mapSet_self] at htb
              cases htb
              simp
      · simp only [addBlocksGo]
        exact ih _ _ b h'

/-- The loop never removes keys. -/
theorem addBlocksGo_containsKey (A X : String) :
    ∀ (l : List String) (t : Task) (fs : List (String × Task)),
      containsKey fs X = true →
      containsKey (addBlocksGo A l t fs).2 X = true := by
  intro l
  induction l with
  | nil => intro t fs h; exact h
  | cons b rest ih =>
      intro t fs h
      simp only [addBlocksGo]
      cases hb : mapGet fs b with
      | none => exact ih _ fs h
      | some bt =>
          by_cases hbb : A ∈ bt.blockedBy
          · simp only [hbb, ite_true]
            exact ih _ fs h
          · simp only [hbb, ite_false]
            apply ih
            rw [containsKey_mapSet]
            simp [h]

/-- The loop keeps the key list duplicate-free. -/
theorem addBlocksGo_keysNodup (A : String) :
    ∀ (l : List String) (t : Task) (fs : List (String × Task)),
      (keysOf fs).Nodup → (keysOf (addBlocksGo A l t fs).2).Nodup := by
  intro l
  induction l with
  | nil => intro t fs h; exact h
  | cons b rest ih =>
      intro t fs h
      simp only [addBlocksGo]
      cases hb : mapGet fs b with
      | none => exact ih _ fs h
      | some bt =>
          by_cases hbb : A ∈ bt.blockedBy
          · simp only [hbb, ite_true]
            exact ih _ fs h
          · simp only [hbb, ite_false]
            exact ih _ _ (keysOf_mapSet_nodup h _ _)

/-- Rerunning the `addBlocks` loop after it already took effect changes
nothing except possibly writing the mirrored self edge into the task's own
file, which the caller overwrites again. -/
theorem addBlocksGo_idem (A : String) :
    ∀ (l : List String) (t : Task) (fs : List (String × Task)),
      (∀ b ∈ l, b ∈ t.blocks) →
      (mapGet fs A = some t ∨
        mapGet fs A = some { t with blockedBy := t.blockedBy ++ [A] }) →
      (∀ b ∈ l, b ≠ A → ∀ bt, mapGet fs b = some bt → A ∈ bt.blockedBy) →
      (addBlocksGo A l t fs).1 = t ∧
      ((addBlocksGo A l t fs).2 = fs ∨
        (addBlocksGo A l t fs).2
          = mapSet fs A { t with blockedBy := t.blockedBy ++ [A] }) := by
  intro l
  induction l with
  | nil => intro t fs _ _ _; exact ⟨rfl, Or.inl rfl⟩
  | cons b rest ih =>
      intro t fs hblocks hA hfs
      have hbmem : b ∈ t.blocks := hblocks b (List.mem_cons_self b rest)
      have hblocks' : ∀ c ∈ rest, c ∈ t.blocks :=
        fun c hc => hblocks c (List.mem_cons_of_mem b hc)
      have hfs' : ∀ c ∈ rest, c ≠ A → ∀ bt, mapGet fs c = some bt →
          A ∈ bt.blockedBy :=
        fun c hc => hfs c (List.mem_cons_of_mem b hc)
      simp only [addBlocksGo, hbmem, ite_true]
      by_cases hbA : b = A
      · subst hbA
        rcases hA with hA | hA
        · rw [hA]
          by_cases hmem : b ∈ t.blockedBy
          · simp only [hmem, ite_true]
            exact ih t fs hblocks' (Or.inl hA) hfs'
          · simp only [hmem, ite_false]
            have hfs2 : ∀ c ∈ rest, c ≠ b → ∀ bt,
                mapGet (mapSet fs b { t with blockedBy := t.blockedBy ++ [b] }) c
                  = some bt → b ∈ bt.blockedBy := by
              intro c hc hcb bt htb
              rw [mapGet_mapSet_ne _ hcb] at htb
              exact hfs' c hc hcb bt htb
            obtain ⟨h1, h2⟩ := ih t _ hblocks'
              (Or.inr (mapGet_mapSet_self fs b _)) hfs2
            refine ⟨h1, ?_⟩
            rcases h2 with h2 | h2
            · right
              rw [h2]
            · right
              rw [h2, mapSet_mapSet_same]
        · rw [hA]
          have hmem : b ∈ ({ t with blockedBy := t.blockedBy ++ [b] } : Task).blockedBy := by
            simp
          simp only [hmem, ite_true]
          exact ih t fs hblocks' (Or.inr hA) hfs'
      · cases hb : mapGet fs b with
        | none => exact ih t fs hblocks' hA hfs'
        | some bt =>
            have hbb : A ∈ bt.blockedBy :=
              hfs b (List.mem_cons_self b rest) hbA bt hb
            simp only [hbb, ite_true]
            exact ih t fs hblocks' hA hfs'

end TaskStore

namespace TaskStore

open AcpModel

/-- The `addBlockedBy` loop only grows the task's `blockedBy`. -/
theorem addBlockedByGo_blockedBy_mono (A b : String) :
    ∀ (l : List String) (t : Task) (fs : List (String × Task)),
      b ∈ t.blockedBy → b ∈ (addBlockedByGo A l t fs).1.blockedBy := by
  intro l
  induction l with
  | nil => intro t fs h; exact h
  | cons c rest ih =>
      intro t fs h
      simp only [addBlockedByGo]
      apply ih
      by_cases hmem : c ∈ t.blockedBy
      · simpa [hmem] using h
      · simp only [hmem, ite_false]
        exact List.mem_append_left _ h

/-- Every id of the patch ends up in the task's `blockedBy`. -/
theorem addBlockedByGo_blockedBy_mem (A b : String) :
    ∀ (l : List String) (t : Task) (fs : List (String × Task)),
      b ∈ l → b ∈ (addBlockedByGo A l t fs).1.blockedBy := by
  intro l
  induction l with
  | nil => intro t fs h; simp at h
  | cons c rest ih =>
      intro t fs h
      rcases List.mem_cons.mp h with h' | h'
      · subst h'
        simp only [addBlockedByGo]
        apply addBlockedByGo_blockedBy_mono
        by_cases hmem : b ∈ t.blockedBy
        · simpa [hmem] using hmem
        · simp [hmem]
      · simp only [addBlockedByGo]
        exact ih _ _ h'

/-- A file already recording the mirrored `blocks` edge keeps it. -/
theorem addBlockedByGo_files_preserves (A X : String) :
    ∀ (l : List String) (t : Task) (fs : List (String × Task)),
      (∀ bt, mapGet fs X = some bt → A ∈ bt.blocks) →
      (∀ bt, mapGet (addBlockedByGo A l t fs).2 X = some bt →
        A ∈ bt.blocks) := by
  intro l
  induction l with
  | nil => intro t fs h; exact h
  | cons b rest ih =>
      intro t fs h
      simp only [addBlockedByGo]
      cases hb : mapGet fs b with
      | none => exact ih _ fs h
      | some bt =>
          by_cases hbb : A ∈ bt.blocks
          · simp only [hbb, ite_true]
            exact ih _ fs h
          · simp only [hbb, ite_false]
            apply ih
            intro tb htb
            by_cases hbX : X = b
            · subst hbX
              rw [mapGet_mapSet_self] at htb
              cases htb
              simp
            · rw [mapGet_mapSet_ne _ hbX] at htb
              exact h tb htb

/-- After the loop, every patched file records the mirrored `blocks`
edge. -/
theorem addBlockedByGo_files_mem (A : String) :
    ∀ (l : List String) (t : Task) (fs : List (String × Task)) (b : String),
      b ∈ l →
      (∀ bt, mapGet (addBlockedByGo A l t fs).2 b = some bt →
        A ∈ bt.blocks) := by
  intro l
  induction l with
  | nil => intro t fs b h; simp at h
  | cons c rest ih =>
      intro t fs b h
      rcases List.mem_cons.mp h with h' | h'
      · subst h'
        simp only [addBlockedByGo]
        cases hb : mapGet fs b with
        | none =>
            apply addBlockedByGo_files_preserves
            intro tb htb
            rw [hb] at htb
            cases htb
        | some bt =>
            by_cases hbb : A ∈ bt.blocks
            · simp only [hbb, ite_true]
              apply addBlockedByGo_files_preserves
              intro tb htb
              rw [hb] at htb
              cases htb
              exact hbb
            · simp only [hbb, ite_false]
              apply addBlockedByGo_files_preserves
              intro tb htb
              rw [mapGet_mapSet_self] at htb
              cases htb
              simp
      · simp only [addBlockedByGo]
        exact ih _ _ b h'

/-- The loop never removes keys. -/
theorem addBlockedByGo_containsKey (A X : String) :
    ∀ (l : List String) (t : Task) (fs : List (String × Task)),
      containsKey fs X = true →
      containsKey (addBlockedByGo A l t fs).2 X = true := by
  intro l
  induction l with
  | nil => intro t fs h; exact h
  | cons b rest ih =>
      intro t fs h
      simp only [addBlockedByGo]
      cases hb : mapGet fs b with
      | none => exact ih _ fs h
      | some bt =>
          by_cases hbb : A ∈ bt.blocks
          · simp only [hbb, ite_true]
            exact ih _ fs h
          · simp only [hbb, ite_false]
            apply ih
            rw [containsKey_mapSet]
            simp [h]

/-- The loop keeps the key list duplicate-free. -/
theorem addBlockedByGo_keysNodup (A : String) :
    ∀ (l : List String) (t : Task) (fs : List (String × Task)),
      (keysOf fs).Nodup → (keysOf (addBlockedByGo A l t fs).2).Nodup := by
  intro l
  induction l with
  | nil => intro t fs h; exact h
  | cons b rest ih =>
      intro t fs h
      simp only [addBlockedByGo]
      cases hb : mapGet fs b with
      | none => exact ih _ fs h
      | some bt =>
          by_cases hbb : A ∈ bt.blocks
          · simp only [hbb, ite_true]
            exact ih _ fs h
          · simp only [hbb, ite_false]
            exact ih _ _ (keysOf_mapSet_nodup h _ _)

/-- Rerunning the `addBlockedBy` loop after it already took effect changes
nothing except possibly the task's own file, which the caller overwrites. -/
theorem addBlockedByGo_idem (A : String) :
    ∀ (l : List String) (t : Task) (fs : List (String × Task)),
      (∀ b ∈ l, b ∈ t.blockedBy) →
      (mapGet fs A = some t ∨
        mapGet fs A = some { t with blocks := t.blocks ++ [A] }) →
      (∀ b ∈ l, b ≠ A → ∀ bt, mapGet fs b = some bt → A ∈ bt.blocks) →
      (addBlockedByGo A l t fs).1 = t ∧
      ((addBlockedByGo A l t fs).2 = fs ∨
        (addBlockedByGo A l t fs).2
          = mapSet fs A { t with blocks := t.blocks ++ [A] }) := by
  intro l
  induction l with
  | nil => intro t fs _ _ _; exact ⟨rfl, Or.inl rfl⟩
  | cons b rest ih =>
      intro t fs hblocks hA hfs
      have hbmem : b ∈ t.blockedBy := hblocks b (List.mem_cons_self b rest)
      have hblocks' : ∀ c ∈ rest, c ∈ t.blockedBy :=
        fun c hc => hblocks c (List.mem_cons_of_mem b hc)
      have hfs' : ∀ c ∈ rest, c ≠ A → ∀ bt, mapGet fs c = some bt →
          A ∈ bt.blocks :=
        fun c hc => hfs c (List.mem_cons_of_mem b hc)
      simp only [addBlockedByGo, hbmem, ite_true]
      by_cases hbA : b = A
      · subst hbA
        rcases hA with hA | hA
        · rw [hA]
          by_cases hmem : b ∈ t.blocks
          · simp only [hmem, ite_true]
            exact ih t fs hblocks' (Or.inl hA) hfs'
          · simp only [hmem, ite_false]
            have hfs2 : ∀ c ∈ rest, c ≠ b → ∀ bt,
                mapGet (mapSet fs b { t with blocks := t.blocks ++ [b] }) c
                  = some bt → b ∈ bt.blocks := by
              intro c hc hcb bt htb
              rw [mapGet_mapSet_ne _ hcb] at htb
              exact hfs' c hc hcb bt htb
            obtain ⟨h1, h2⟩ := ih t _ hblocks'
              (Or.inr (mapGet_mapSet_self fs b _)) hfs2
            refine ⟨h1, ?_⟩
            rcases h2 with h2 | h2
            · right
              rw [h2]
            · right
              rw [h2, mapSet_mapSet_same]
        · rw [hA]
          have hmem : b ∈ ({ t with blocks := t.blocks ++ [b] } : Task).blocks := by
            simp
          simp only [hmem, ite_true]
          exact ih t fs hblocks' (Or.inr hA) hfs'
      · cases hb : mapGet fs b with
        | none => exact ih t fs hblocks' hA hfs'
        | some bt =>
            have hbb : A ∈ bt.blocks :=
              hfs b (List.mem_cons_self b rest) hbA bt hb
            simp only [hbb, ite_true]
            exact ih t fs hblocks' hA hfs'

end TaskStore

namespace TaskStore

open AcpModel

/-- `update` with an `addBlocks`-only patch, unfolded. -/
theorem update_addBlocksPatch_eq (st : StoreState) (A : String)
    (l : List String) (t0 : Task) (hA : mapGet (init st).files A = some t0) :
    update st A (addBlocksPatch l) =
      Except.ok ((addBlocksGo A l t0 (init st).files).1,
        { init st with files := (mapSet
            (addBlocksGo A l t0 (init st).files).2 A
            (addBlocksGo A l t0 (init st).files).1) }) := by
  have hcond : ((none : Option TaskStatus) = some TaskStatus.completed)
      = False := by simp
  simp only [update, hA, addBlocksPatch, blankPatch, applyScalar,
    addBlockedByGo, mergeMetadata, Option.getD, hcond, if_false]

/-- `update` with an `addBlockedBy`-only patch, unfolded. -/
theorem update_addBlockedByPatch_eq (st : StoreState) (A : String)
    (l : List String) (t0 : Task) (hA : mapGet (init st).files A = some t0) :
    update st A (addBlockedByPatch l) =
      Except.ok ((addBlockedByGo A l t0 (init st).files).1,
        { init st with files := (mapSet
            (addBlockedByGo A l t0 (init st).files).2 A
            (addBlockedByGo A l t0 (init st).files).1) }) := by
  have hcond : ((none : Option TaskStatus) = some TaskStatus.completed)
      = False := by simp
  simp only [update, hA, addBlockedByPatch, blankPatch, applyScalar,
    addBlocksGo, mergeMetadata, Option.getD, hcond, if_false]

end TaskStore

namespace TaskStore

open AcpModel

/-- Applying the same `addBlocks` patch a second time returns the same
task and the same store. -/
theorem update_addBlocks_idem_aux (st : StoreState)
    (hkeys : (keysOf st.files).Nodup) (A : String) (l : List String)
    (t1 : Task) (st1 : StoreState)
    (hok : update st A (addBlocksPatch l) = Except.ok (t1, st1)) :
    update st1 A (addBlocksPatch l) = Except.ok (t1, st1) := by
  cases hA : mapGet (init st).files A with
  | none =>
      rw [show update st A (addBlocksPatch l)
          = Except.error ("Task not found: " ++ A) from by
        simp only [update, hA]] at hok
      exact Except.noConfusion hok
  | some t0 =>
      rw [update_addBlocksPatch_eq st A l t0 hA] at hok
      rw [Except.ok.injEq, Prod.mk.injEq] at hok
      obtain ⟨ht, hst⟩ := hok
      have hkeys' : (keysOf (init st).files).Nodup := by
        rw [init_files]
        exact hkeys
      have hget1 : mapGet st1.files A = some t1 := by
        rw [← hst, ← ht]
        exact mapGet_mapSet_self _ A _
      have hkeys1 : (keysOf st1.files).Nodup := by
        rw [← hst]
        exact keysOf_mapSet_nodup (addBlocksGo_keysNodup A l t0 _ hkeys') _ _
      have hinit1files : (init st1).files = st1.files := init_files st1
      have hinit1 : init st1 = st1 := by
        unfold init
        rw [if_pos]
        rw [← hst]
        exact init_initialized st
      rw [update_addBlocksPatch_eq st1 A l t1 (by rw [hinit1]; exact hget1)]
      have hgo := addBlocksGo_idem A l t1 (init st1).files
        (fun b hb => by
          rw [← ht]
          exact addBlocksGo_blocks_mem A b l t0 (init st).files hb)
        (by
          left
          rw [hinit1]
          exact hget1)
        (fun b hb hbA bt htb => by
          rw [hinit1, ← hst, mapGet_mapSet_ne _ hbA] at htb
          exact addBlocksGo_files_mem A l t0 (init st).files b hb bt htb)
      obtain ⟨hg1, hg2⟩ := hgo
      rw [Except.ok.injEq, Prod.mk.injEq]
      refine ⟨hg1, ?_⟩
      have hfinal : mapSet (addBlocksGo A l t1 (init st1).files).2 A
          (addBlocksGo A l t1 (init st1).files).1 = st1.files := by
        rw [hg1]
        rcases hg2 with hg2 | hg2
        · rw [hg2, hinit1]
          exact mapSet_self_of_get hkeys1 hget1
        · rw [hg2, mapSet_mapSet_same, hinit1]
          exact mapSet_self_of_get hkeys1 hget1
      rw [hfinal, hinit1]

/-- Applying the same `addBlockedBy` patch a second time returns the same
task and the same store. -/
theorem update_addBlockedBy_idem_aux (st : StoreState)
    (hkeys : (keysOf st.files).Nodup) (A : String) (l : List String)
    (t1 : Task) (st1 : StoreState)
    (hok : update st A (addBlockedByPatch l) = Except.ok (t1, st1)) :
    update st1 A (addBlockedByPatch l) = Except.ok (t1, st1) := by
  cases hA : mapGet (init st).files A with
  | none =>
      rw [show update st A (addBlockedByPatch l)
          = Except.error ("Task not found: " ++ A) from by
        simp only [update, hA]] at hok
      exact Except.noConfusion hok
  | some t0 =>
      rw [update_addBlockedByPatch_eq st A l t0 hA] at hok
      rw [Except.ok.injEq, Prod.mk.injEq] at hok
      obtain ⟨ht, hst⟩ := hok
      have hkeys' : (keysOf (init st).files).Nodup := by
        rw [init_files]
        exact hkeys
      have hget1 : mapGet st1.files A = some t1 := by
        rw [← hst, ← ht]
        exact mapGet_mapSet_self _ A _
      have hkeys1 : (keysOf st1.files).Nodup := by
        rw [← hst]
        exact keysOf_mapSet_nodup (addBlockedByGo_keysNodup A l t0 _ hkeys') _ _
      have hinit1 : init st1 = st1 := by
        unfold init
        rw [if_pos]
        rw [← hst]
        exact init_initialized st
      rw [update_addBlockedByPatch_eq st1 A l t1 (by rw [hinit1]; exact hget1)]
      have hgo := addBlockedByGo_idem A l t1 (init st1).files
        (fun b hb => by
          rw [← ht]
          exact addBlockedByGo_blockedBy_mem A b l t0 (init st).files hb)
        (by
          left
          rw [hinit1]
          exact hget1)
        (fun b hb hbA bt htb => by
          rw [hinit1, ← hst, mapGet_mapSet_ne _ hbA] at htb
          exact addBlockedByGo_files_mem A l t0 (init st).files b hb bt htb)
      obtain ⟨hg1, hg2⟩ := hgo
      rw [Except.ok.injEq, Prod.mk.injEq]
      refine ⟨hg1, ?_⟩
      have hfinal : mapSet (addBlockedByGo A l t1 (init st1).files).2 A
          (addBlockedByGo A l t1 (init st1).files).1 = st1.files := by
        rw [hg1]
        rcases hg2 with hg2 | hg2
        · rw [hg2, hinit1]
          exact mapSet_self_of_get hkeys1 hget1
        · rw [hg2, mapSet_mapSet_same, hinit1]
          exact mapSet_self_of_get hkeys1 hget1
      rw [hfinal, hinit1]

end TaskStore

namespace TaskStore

open AcpModel

/-- Any successful `update` keeps every stored task's edge lists
duplicate-free. -/
theorem update_EdgeNodup (st : StoreState) (A : String)
    (input : TaskUpdateInput) (t1 : Task) (st1 : StoreState)
    (he : EdgeNodup st.files)
    (hok : update st A input = Except.ok (t1, st1)) :
    EdgeNodup st1.files := by
  cases hA : mapGet (init st).files A with
  | none =>
      rw [show update st A input = Except.error ("Task not found: " ++ A) from by
        simp only [update, hA]] at hok
      exact Except.noConfusion hok
  | some t0 =>
      have he0 : EdgeNodup (init st).files := by
        rw [init_files]
        exact he
      have ht0 := he0 (A, t0) (mapGet_some_mem hA)
      simp only [update, hA] at hok
      rw [Except.ok.injEq, Prod.mk.injEq] at hok
      obtain ⟨ht, hst⟩ := hok
      rw [← hst]
      set r2 := addBlocksGo A (input.addBlocks.getD [])
        (applyScalar t0 input) (init st).files with hr2
      set r3 := addBlockedByGo A (input.addBlockedBy.getD []) r2.1 r2.2
        with hr3
      have hsc := applyScalar_edges t0 input
      have h2 := addBlocksGo_nodup A (input.addBlocks.getD [])
        (applyScalar t0 input) (init st).files
        (by rw [hsc.1]; exact ht0.1) he0
      rw [← hr2] at h2
      have h3 := addBlockedByGo_nodup A (input.addBlockedBy.getD [])
        r2.1 r2.2 (by rw [h2.2.1, hsc.2]; exact ht0.2) h2.2.2
      rw [← hr3] at h3
      have hblocks3 : r3.1.blocks.Nodup := by
        rw [h3.2.1]
        exact h2.1
      by_cases hs : input.status = some TaskStatus.completed
      · simp only [hs, ite_true]
        exact @EdgeNodup_mapSet (completedPassGo A r3.1.blocks r3.2)
          (completedPassGo_nodup A r3.1.blocks r3.2 h3.2.2)
          { r3.1 with metadata := mergeMetadata r3.1.metadata input.metadata }
          hblocks3 h3.1 A
      · simp only [hs, ite_false]
        exact @EdgeNodup_mapSet r3.2 h3.2.2
          { r3.1 with metadata := mergeMetadata r3.1.metadata input.metadata }
          hblocks3 h3.1 A

end TaskStore

namespace TaskStore

open AcpModel

/-- C10: edge lists stay duplicate-free under every operation — `create`
initializes both lists empty; successful `update`s (any patch) and
`delete`s preserve duplicate-freeness of every stored task's `blocks` and
`blockedBy`; and applying the same `addBlocks` or `addBlockedBy` patch a
second time returns the same task and leaves the store exactly as after
the first application. -/
theorem edge_lists_nodup_and_idempotent (st : StoreState) :
    (∀ i, (create st i).1.blocks = [] ∧ (create st i).1.blockedBy = []) ∧
    (∀ i, EdgeNodup st.files → EdgeNodup (create st i).2.files) ∧
    (∀ A input t1 st1, EdgeNodup st.files →
        update st A input = Except.ok (t1, st1) → EdgeNodup st1.files) ∧
    (∀ A, EdgeNodup st.files → EdgeNodup (deleteTask st A).2.files) ∧
    (∀ A l t1 st1, (keysOf st.files).Nodup →
        update st A (addBlocksPatch l) = Except.ok (t1, st1) →
        update st1 A (addBlocksPatch l) = Except.ok (t1, st1)) ∧
    (∀ A l t1 st1, (keysOf st.files).Nodup →
        update st A (addBlockedByPatch l) = Except.ok (t1, st1) →
        update st1 A (addBlockedByPatch l) = Except.ok (t1, st1)) := by
  refine ⟨?_, ?_, ?_, ?_, ?_, ?_⟩
  · intro i
    exact ⟨rfl, rfl⟩
  · intro i he
    simp only [create]
    apply EdgeNodup_mapSet
    · rw [init_files]
      exact he
    · exact List.nodup_nil
    · exact List.nodup_nil
  · exact fun A input t1 st1 he hok =>
      update_EdgeNodup st A input t1 st1 he hok
  · intro A he
    have he0 : EdgeNodup (init st).files := by
      rw [init_files]
      exact he
    cases hA : mapGet (init st).files A with
    | none =>
        simp only [deleteTask, hA]
        exact he0
    | some t =>
        simp only [deleteTask, hA]
        have he2 : EdgeNodup (deleteBlockedByGo A t.blockedBy
            (deleteBlocksGo A t.blocks (init st).files)) :=
          deleteBlockedByGo_nodup A t.blockedBy _
            (deleteBlocksGo_nodup A t.blocks _ he0)
        by_cases hck : containsKey (deleteBlockedByGo A t.blockedBy
            (deleteBlocksGo A t.blocks (init st).files)) A
        · simp only [hck, ite_true]
          exact EdgeNodup_mapDelete he2 A
        · simp only [hck, ite_false]
          exact he2
  · exact fun A l t1 st1 hkeys hok =>
      update_addBlocks_idem_aux st hkeys A l t1 st1 hok
  · exact fun A l t1 st1 hkeys hok =>
      update_addBlockedBy_idem_aux st hkeys A l t1 st1 hok

/-- Witness for `edge_lists_nodup_and_idempotent`: a fresh create has empty
edge lists, and repeating `addBlocks ["2"]` on the two-task store returns
the identical task and store. -/
theorem edge_lists_nodup_and_idempotent_witness :
    ((create Examples.singleStore Examples.runTestsInput).1.blocks = [] ∧
      (create Examples.singleStore Examples.runTestsInput).1.blockedBy = []) ∧
    update Examples.pairStoreAfter "1" (addBlocksPatch ["2"])
      = Except.ok (Examples.pairTaskA, Examples.pairStoreAfter) := by
  constructor
  · exact (edge_lists_nodup_and_idempotent Examples.singleStore).1
      Examples.runTestsInput
  · exact (edge_lists_nodup_and_idempotent Examples.pairStore).2.2.2.2.1
      "1" ["2"] Examples.pairTaskA Examples.pairStoreAfter (by decide) rfl

end TaskStore
